import Mathlib

/-!
# OS-ChatMod: moderation engine, group session and orchestrator

A shallow embedding of `moderator.c`, `groups.c` and `app.c`.

Conventions of the embedding:
* a C `char` is a byte, held as a `Nat`; a C string is the list of its bytes
  before the terminating NUL;
* a C `int` is an `Int`; where the program does arithmetic on a counter the
  result is reduced to 32 bits by `wrapInt`;
* an array access outside the declared bounds has no defined result in C, and
  the embedded function returns `none` there.
-/

namespace ChatMod

/-! ## Constants -/

/-- Constant `#define MAX_FILTERED 50` (moderator.c). -/
def MAX_FILTERED : Nat := 50

/-- Constant `#define MAX_WORD_LEN 20` (moderator.c). -/
def MAX_WORD_LEN : Nat := 20

/-- Constant `#define MAX_GROUPS 30` (app.c, groups.c, moderator.c). -/
def MAX_GROUPS : Nat := 30

/-- Constant `#define MAX_USERS 50` (groups.c); also the second dimension of the
moderator's `violations[MAX_GROUPS][50]`. -/
def MAX_USERS : Nat := 50

/-- Constant `#define MAX_TEXT_SIZE 256` (groups.c, moderator.c). -/
def MAX_TEXT_SIZE : Nat := 256

/-- Smallest value of a 32-bit `int`. -/
def INT_MIN : Int := -2147483648

/-- Largest value of a 32-bit `int`. -/
def INT_MAX : Int := 2147483647

/-- Reduction of an integer to the range of a 32-bit two's-complement `int`. -/
def wrapInt (x : Int) : Int := (x + 2147483648) % 4294967296 - 2147483648

/-! ## Messages -/

/-- The `Message` struct of groups.c and moderator.c. `mtext` is the C string
held in the `char mtext[256]` field. -/
structure Message where
  mtype : Int
  timestamp : Int
  user : Int
  mtext : List Nat
  modifyingGroup : Int
deriving DecidableEq, Repr

/-- The `ModMessage` struct of groups.c and moderator.c. -/
structure ModMessage where
  mtype : Int
  group_id : Int
  user_id : Int
  removeUser : Int
deriving DecidableEq, Repr

/-! ## moderator.c -/

/-- C `tolower` on an `unsigned char` in the "C" locale. -/
def tolower (c : Nat) : Nat := if 65 ≤ c ∧ c ≤ 90 then c + 32 else c

/-- Function `toLowerCase` of moderator.c: every byte of the string goes through
`tolower`. -/
def toLowerCase (str : List Nat) : List Nat := str.map tolower

/-- C `strstr(haystack, needle) != NULL`: the needle is looked for at every
position of the haystack, the end of the string included. -/
def strstr : List Nat → List Nat → Bool
  | [], needle => needle.isEmpty
  | c :: cs, needle => needle.isPrefixOf (c :: cs) || strstr cs needle

/-- The loading loop of moderator.c, lines 86-92, on the whitespace-separated
tokens of `filtered_words.txt`: at most `MAX_FILTERED` tokens are read, each is
lowercased. A token longer than `MAX_WORD_LEN` bytes does not fit its
`char[MAX_WORD_LEN+1]` row. -/
def loadFilteredWords (tokens : List (List Nat)) : Option (List (List Nat)) :=
  if ((tokens.take MAX_FILTERED).all fun w => decide (w.length ≤ MAX_WORD_LEN)) then
    some ((tokens.take MAX_FILTERED).map toLowerCase)
  else
    none

/-- The copy of `msg.mtext` the moderator scans: `strncpy` of at most 255
bytes, terminated, then `toLowerCase` (moderator.c, lines 142-145). -/
def textLower (msg : Message) : List Nat :=
  toLowerCase (msg.mtext.take (MAX_TEXT_SIZE - 1))

/-- The counting loop of moderator.c, lines 151-157: `localViolations` is
incremented once for every entry of `filtered_words` found by `strstr`. -/
def localViolations (text : List Nat) : List (List Nat) → Nat
  | [] => 0
  | w :: ws => (if strstr text w then 1 else 0) + localViolations text ws

/-- The table `static int violations[MAX_GROUPS][50]`. -/
abbrev Violations := Int → Int → Int

/-- The table after `memset(violations, 0, sizeof(violations))`. -/
def zeroViolations : Violations := fun _ _ => 0

/-- Assignment to `violations[g][u]`. -/
def setViolations (v : Violations) (g u : Int) (x : Int) : Violations :=
  fun g1 u1 => if g1 = g ∧ u1 = u then x else v g1 u1

/-- The body of the moderator's `while(1)` loop for one received message
(moderator.c, lines 133-180): the new table and the messages sent with
`msgsnd`. Topics 1, 2, 3 are skipped. Indexing the table outside
`[0, MAX_GROUPS) × [0, 50)` gives `none`. -/
def loopBody (violation_threshold : Int) (filtered_words : List (List Nat))
    (violations : Violations) (msg : Message) : Option (Violations × List ModMessage) :=
  if msg.mtype = 1 ∨ msg.mtype = 2 ∨ msg.mtype = 3 then
    some (violations, [])
  else
    let g := msg.modifyingGroup
    let u := msg.user
    let k : Int := (localViolations (textLower msg) filtered_words : Nat)
    if 0 ≤ g ∧ g < MAX_GROUPS ∧ 0 ≤ u ∧ u < MAX_USERS then
      let after := wrapInt (violations g u + k)
      let violations1 := setViolations violations g u after
      if after ≥ violation_threshold ∧ k > 0 then
        if wrapInt (after - k) < violation_threshold then
          some (violations1,
            [{ mtype := g + 1, group_id := g, user_id := u, removeUser := 1 }])
        else
          some (violations1, [])
      else
        some (violations1, [])
    else
      none

/-- The moderator's loop over a finite sequence of received messages, from a
given table: the final table and all messages sent, in order. -/
def moderate (violation_threshold : Int) (filtered_words : List (List Nat)) :
    Violations → List Message → Option (Violations × List ModMessage)
  | violations, [] => some (violations, [])
  | violations, msg :: rest =>
    match loopBody violation_threshold filtered_words violations msg with
    | none => none
    | some (violations1, sent) =>
      match moderate violation_threshold filtered_words violations1 rest with
      | none => none
      | some (violations2, sent2) => some (violations2, sent ++ sent2)

/-- A message the moderator treats as a chat event: its topic is none of the
administrative topics 1, 2, 3. -/
def isChat (msg : Message) : Bool :=
  !(decide (msg.mtype = 1) || decide (msg.mtype = 2) || decide (msg.mtype = 3))

/-- The chat event's indices lie inside the violation table. -/
def inTable (msg : Message) : Prop :=
  0 ≤ msg.modifyingGroup ∧ msg.modifyingGroup < MAX_GROUPS ∧ 0 ≤ msg.user ∧ msg.user < MAX_USERS

instance (msg : Message) : Decidable (inTable msg) := by
  unfold inTable; infer_instance

/-- The message is a chat event attributed to the pair `(g, u)`. -/
def attributedTo (g u : Int) (msg : Message) : Bool :=
  isChat msg && decide (msg.modifyingGroup = g) && decide (msg.user = u)

/-- Sum of the hit counts of the chat events of a sequence attributed to
`(g, u)`. -/
def attributedHits (filtered_words : List (List Nat)) (g u : Int) : List Message → Int
  | [] => 0
  | msg :: rest =>
    (if attributedTo g u msg then ((localViolations (textLower msg) filtered_words : Nat) : Int) else 0)
      + attributedHits filtered_words g u rest

/-- Number of sent removal commands naming the pair `(g, u)`. -/
def removalsNaming (g u : Int) (sent : List ModMessage) : Nat :=
  (sent.filter fun m => decide (m.group_id = g) && decide (m.user_id = u)).length

/-! ## Formatted input and output -/

/-- C `isspace` in the "C" locale: space, and `\t \n \v \f \r`. -/
def isspace (c : Nat) : Bool := c == 32 || (decide (9 ≤ c) && decide (c ≤ 13))

/-- C `isdigit`. -/
def isdigit (c : Nat) : Bool := decide (48 ≤ c) && decide (c ≤ 57)

/-- Decimal digits of a natural number, most significant first, as ASCII
bytes. The first argument bounds the number of digits produced. -/
def decDigits : Nat → Nat → List Nat
  | 0, _ => []
  | fuel + 1, n => if n < 10 then [48 + n] else decDigits fuel (n / 10) ++ [48 + n % 10]

/-- What `printf("%d", x)` writes for a natural number. -/
def printNat (n : Nat) : List Nat := decDigits (n + 1) n

/-- What `printf("%d", x)` writes. -/
def printInt (x : Int) : List Nat :=
  if x < 0 then 45 :: printNat x.natAbs else printNat x.toNat

/-- Leading white space is skipped by `%d`, `%s` and by a blank in a `scanf`
format. -/
def skipSpace : List Nat → List Nat
  | [] => []
  | c :: cs => if isspace c then skipSpace cs else c :: cs

/-- The run of decimal digits at the head of the input, accumulated into a
number, and the input left over. -/
def scanDigits : Nat → List Nat → Nat × List Nat
  | acc, [] => (acc, [])
  | acc, c :: cs => if isdigit c then scanDigits (acc * 10 + (c - 48)) cs else (acc, c :: cs)

/-- The `%d` conversion of `scanf`: white space, an optional sign, at least one
digit. The value is stored in an `int`. -/
def scanInt (s : List Nat) : Option (Int × List Nat) :=
  match skipSpace s with
  | [] => none
  | c :: cs =>
    if c = 45 then
      match cs with
      | [] => none
      | d :: _ =>
        if isdigit d then some (wrapInt (-((scanDigits 0 cs).1 : Int)), (scanDigits 0 cs).2) else none
    else if c = 43 then
      match cs with
      | [] => none
      | d :: _ =>
        if isdigit d then some (wrapInt ((scanDigits 0 cs).1 : Int), (scanDigits 0 cs).2) else none
    else if isdigit c then
      some (wrapInt ((scanDigits 0 (c :: cs)).1 : Int), (scanDigits 0 (c :: cs)).2)
    else
      none

/-- The `%s` conversion of `scanf` (`width = none`) or `%Ns`
(`width = some N`): white space, then the bytes up to the next white space, at
most `N` of them; an empty token is a failure. -/
def scanStr (width : Option Nat) (s : List Nat) : Option (List Nat × List Nat) :=
  let s1 := skipSpace s
  let run := s1.takeWhile fun c => !isspace c
  let tok := match width with
    | some w => run.take w
    | none => run
  if tok.isEmpty then none else some (tok, s1.drop tok.length)

/-- The buffer holds a C string: one of its bytes is NUL. The C functions that
take a string have no defined result on a buffer that holds none. -/
def holdsString (buffer : List Nat) : Bool := buffer.any fun c => c == 0

/-- The C string held in a byte buffer: the bytes before the first NUL. Where
`holdsString` is false the bytes of the buffer are given back; C defines
nothing there, and no statement on a parsed field is made for such a buffer. -/
def cString (buffer : List Nat) : List Nat := buffer.takeWhile fun c => c != 0

/-! ## groups.c: the user agent (child process) -/

/-- The text `snprintf(buffer, sizeof(buffer), "%d %d %s", timestamp, i,
safe_text)` produces, `safe_text` being the `strncpy` of at most 255 bytes of
`text` (groups.c, lines 167-171). -/
def formatRecord (timestamp : Int) (i : Nat) (text : List Nat) : List Nat :=
  printInt timestamp ++ [32] ++ printInt i ++ [32] ++ (cString text).take (MAX_TEXT_SIZE - 1)

/-- Size of the agent's `char buffer[MAX_TEXT_SIZE + 50]`, which is written to
the pipe whole. -/
def RECORD_SIZE : Nat := MAX_TEXT_SIZE + 50

/-- The bytes one iteration of the agent's loop writes to the pipe: the zeroed
buffer with the formatted record at its start (groups.c, lines 160-178);
`none` when `snprintf` reports truncation and the agent exits. -/
def agentWrite (timestamp : Int) (i : Nat) (text : List Nat) : Option (List Nat) :=
  let s := formatRecord timestamp i text
  if s.length ≥ RECORD_SIZE then none
  else some (s ++ List.replicate (RECORD_SIZE - s.length) 0)

/-- The agent's loop `while (fscanf(uf, "%d %s", &timestamp, text) == 2)` over
the bytes of the script file (groups.c, lines 157-183): the buffers written to
the pipe, in order. The loop ends at the first `fscanf` that does not convert
both fields. A token longer than 255 bytes does not fit `text` (`none`). The
first argument bounds the number of iterations. -/
def agentLoop (i : Nat) : Nat → List Nat → Option (List (List Nat))
  | 0, _ => some []
  | fuel + 1, input =>
    match scanInt input with
    | none => some []
    | some (timestamp, rest) =>
      match scanStr none rest with
      | none => some []
      | some (text, rest1) =>
        if text.length ≥ MAX_TEXT_SIZE then none
        else
          match agentWrite timestamp i text with
          | none => some []
          | some buffer =>
            match agentLoop i fuel rest1 with
            | none => none
            | some buffers => some (buffer :: buffers)

/-- The user agent of user `i` on a script file: every iteration consumes at
least one byte, so the length of the script bounds the iterations. -/
def userAgent (i : Nat) (script : List Nat) : Option (List (List Nat)) :=
  agentLoop i script.length script

/-! ## groups.c: the group session (parent process) -/

/-- The three message queues a group session holds. -/
inductive Bus
  | validation
  | moderator
  | app
deriving DecidableEq, Repr

/-- Topic of the chat events of a group: `MAX_GROUPS + group_index`
(groups.c, line 262). -/
def chatTopic (group_index : Nat) : Int := (MAX_GROUPS : Int) + group_index

/-- The message type a group session asks `msgrcv` for when it drains removal
commands: `group_index + 1` (groups.c, line 301). -/
def removalFilter (group_index : Nat) : Int := (group_index : Int) + 1

/-- Result of `read(pipes[i][0], buffer, sizeof(buffer))`. -/
inductive ReadResult
  | data (bytes : List Nat)
  | eof
  | error
deriving DecidableEq, Repr

/-- The session's `char buffer[256]` after `memset` and a `read` that returned
the given bytes. -/
def readBuffer (bytes : List Nat) : List Nat :=
  (bytes ++ List.replicate (MAX_TEXT_SIZE - bytes.length) 0).take MAX_TEXT_SIZE

/-- The call `sscanf(buffer, "%d %d %255s", &ts, &usr, msgText)` when it
returns 3 (groups.c, line 255), on a buffer that holds a string. On a buffer
of 256 bytes without NUL `sscanf` reads past `buffer[255]`; the fields given
here for such a buffer are those of its 256 bytes and stand for nothing the
program is bound to do. -/
def sscanfRecord (buffer : List Nat) : Option (Int × Int × List Nat) :=
  match scanInt (cString buffer) with
  | none => none
  | some (ts, rest) =>
    match scanInt rest with
    | none => none
    | some (usr, rest1) =>
      match scanStr (some 255) rest1 with
      | none => none
      | some (msgText, _) => some (ts, usr, msgText)

/-- The `chatMsg` a session builds from a parsed record (groups.c, lines
261-266). -/
def chatMessage (group_index : Nat) (ts usr : Int) (msgText : List Nat) : Message :=
  { mtype := chatTopic group_index, timestamp := ts, user := usr,
    mtext := msgText.take (MAX_TEXT_SIZE - 1), modifyingGroup := group_index }

/-- What a session does that is visible outside it: a `read` on the pipe of
user `i` with its result, a `msgsnd` issued in the loop iteration of user `i`,
the `close` of the read end of a pipe, the back-off `usleep`. -/
inductive Effect
  | read (i : Nat) (r : ReadResult)
  | send (i : Nat) (bus : Bus) (msg : Message)
  | close (i : Nat)
  | usleep
deriving DecidableEq, Repr

/-- The variables of the session's main loop. -/
structure GroupState where
  users_active : Nat → Int
  total_active : Int
  user_removed_count : Int

/-- The state before the main loop (groups.c, lines 121-224):
`memset(users_active, 1, sizeof(users_active))` fills every byte with 1, so
every `int` of the array is `0x01010101`. -/
def initGroup (initial_users : Nat) : GroupState :=
  { users_active := fun _ => 16843009
    total_active := initial_users
    user_removed_count := 0 }

/-- Assignment `users_active[i] = 0`. -/
def deactivate (users_active : Nat → Int) (i : Nat) : Nat → Int :=
  fun j => if j = i then 0 else users_active j

/-- The per-user `for` loop of a cycle (groups.c, lines 238-293) over the
remaining loop indices, `reads i` being what `read` returns on the pipe of
user `i`. The result carries the flag `all_empty`. An index outside
`users_active[MAX_USERS]` gives `none`. `msgsnd` is taken to succeed, and the
guard `chatMsg.mtype <= 0` cannot fire for a natural `group_index`. -/
def userPass (group_index : Nat) (reads : Nat → ReadResult) :
    List Nat → GroupState → Bool → Option (GroupState × List Effect × Bool)
  | [], st, all_empty => some (st, [], all_empty)
  | i :: is, st, all_empty =>
    if i < MAX_USERS then
      if st.users_active i = 0 then userPass group_index reads is st all_empty
      else
        match reads i with
        | .data bytes =>
          match sscanfRecord (readBuffer bytes) with
          | none =>
            (userPass group_index reads is st false).map fun r =>
              (r.1, Effect.read i (.data bytes) :: r.2.1, r.2.2)
          | some (ts, usr, msgText) =>
            (userPass group_index reads is st false).map fun r =>
              (r.1, Effect.read i (.data bytes)
                :: Effect.send i Bus.validation (chatMessage group_index ts usr msgText)
                :: Effect.send i Bus.moderator (chatMessage group_index ts usr msgText)
                :: r.2.1, r.2.2)
        | .eof =>
          (userPass group_index reads is
              { st with users_active := deactivate st.users_active i
                        total_active := st.total_active - 1 } all_empty).map fun r =>
            (r.1, Effect.read i .eof :: r.2.1, r.2.2)
        | .error =>
          (userPass group_index reads is st all_empty).map fun r =>
            (r.1, Effect.read i .error :: r.2.1, r.2.2)
    else none

/-- The body of the drain loop for one received `ModMessage` (groups.c, lines
311-318). Indexing `users_active` outside its bounds gives `none`. -/
def applyRemoval (m : ModMessage) (st : GroupState) : Option (GroupState × List Effect) :=
  if m.removeUser = 1 then
    if 0 ≤ m.user_id ∧ m.user_id < MAX_USERS then
      if st.users_active m.user_id.toNat = 0 then some (st, [])
      else
        some ({ users_active := deactivate st.users_active m.user_id.toNat
                total_active := st.total_active - 1
                user_removed_count := st.user_removed_count + 1 },
              [Effect.close m.user_id.toNat])
    else none
  else some (st, [])

/-- The drain loop (groups.c, lines 299-319) over the messages `msgrcv`
returns, in order. -/
def drain : List ModMessage → GroupState → Option (GroupState × List Effect)
  | [], st => some (st, [])
  | m :: ms, st =>
    match applyRemoval m st with
    | none => none
    | some (st1, t1) =>
      match drain ms st1 with
      | none => none
      | some (st2, t2) => some (st2, t1 ++ t2)

/-- What one cycle of the main loop meets: the result of the `read` on each
user's pipe, should it be attempted, and the `ModMessage`s waiting on the
moderator queue. -/
structure CycleInput where
  reads : Nat → ReadResult
  queue : List ModMessage

/-- The messages of the queue that `msgrcv` with type `group_index + 1`
returns. -/
def drained (group_index : Nat) (queue : List ModMessage) : List ModMessage :=
  queue.filter fun m => decide (m.mtype = removalFilter group_index)

/-- A cycle of the main loop from inside its per-user pass: the pass over the
remaining indices, the drain, and the `usleep` when `all_empty` held. -/
def cycleFrom (group_index : Nat) (c : CycleInput) (is : List Nat) (st : GroupState)
    (all_empty : Bool) : Option (GroupState × List Effect) :=
  match userPass group_index c.reads is st all_empty with
  | none => none
  | some (st1, t1, all_empty1) =>
    match drain (drained group_index c.queue) st1 with
    | none => none
    | some (st2, t2) => some (st2, t1 ++ t2 ++ (if all_empty1 then [Effect.usleep] else []))

/-- One cycle of the main loop after its test (groups.c, lines 237-324). -/
def cycle (group_index initial_users : Nat) (c : CycleInput) (st : GroupState) :
    Option (GroupState × List Effect) :=
  cycleFrom group_index c (List.range initial_users) st true

/-- Record of a run of the main loop: the state at every evaluation of the
test `total_active < 2`, the effects, and whether the `break` was taken. -/
structure LoopRun where
  boundaries : List GroupState
  trace : List Effect
  ended : Bool

/-- The main loop `while (1)` (groups.c, lines 226-325) over the cycles whose
inputs are given. When the inputs are used up the loop is still running
(`ended = false`). -/
def mainLoop (group_index initial_users : Nat) : GroupState → List CycleInput → Option LoopRun
  | st, cs =>
    if st.total_active < 2 then some { boundaries := [st], trace := [], ended := true }
    else
      match cs with
      | [] => some { boundaries := [st], trace := [], ended := false }
      | c :: rest =>
        match cycle group_index initial_users c st with
        | none => none
        | some (st1, t1) =>
          match mainLoop group_index initial_users st1 rest with
          | none => none
          | some r => some { boundaries := st :: r.boundaries, trace := t1 ++ r.trace, ended := r.ended }

/-- Number of users of the group whose `users_active` entry is non-zero. -/
def activeCount (initial_users : Nat) (st : GroupState) : Nat :=
  ((List.range initial_users).filter fun i => decide (st.users_active i ≠ 0)).length

/-- The pipe or loop index an effect concerns. -/
def Effect.user : Effect → Option Nat
  | .read i _ => some i
  | .send i _ _ => some i
  | .close i => some i
  | .usleep => none

/-- The `msgsnd` calls of the termination section (groups.c, lines 327-354):
one message of type 3 to the validation queue. The notification of the app
queue is only sketched in a comment of the source. -/
def shutdown (group_index : Nat) (st : GroupState) : List (Bus × Message) :=
  [(Bus.validation,
    { mtype := 3, timestamp := 0, user := st.user_removed_count, mtext := [],
      modifyingGroup := group_index })]

/-! ## app.c -/

/-- The capacity test of app.c, line 46: the orchestrator goes on when
`n > MAX_GROUPS` is false. -/
def orchestratorAccepts (n : Int) : Bool := !decide (n > MAX_GROUPS)

/-- The loop `while (active_groups > 0)` of app.c, lines 124-131, over the
messages that arrive on the app queue: each one of type 3 decrements
`active_groups`. The result is the value of `active_groups` when the loop has
ended (0) or is blocked in `msgrcv` on the emptied queue. -/
def awaitTerminations : Int → List Message → Int
  | active_groups, [] => active_groups
  | active_groups, msg :: queue =>
    if active_groups > 0 then
      if msg.mtype = 3 then awaitTerminations (active_groups - 1) queue
      else awaitTerminations active_groups queue
    else active_groups

/-! ## Concrete data used in the examples -/

/-- The bytes of `spam`. -/
def spam : List Nat := [115, 112, 97, 109]

/-- The bytes of `scam`. -/
def scam : List Nat := [115, 99, 97, 109]

/-- The bytes of `Spam`. -/
def spamCapital : List Nat := [83, 112, 97, 109]

/-- A chat event of user `u` of group `g` as a session forwards it. -/
def chatEvent (g u : Nat) (ts : Int) (text : List Nat) : Message :=
  { mtype := chatTopic g, timestamp := ts, user := u, mtext := text, modifyingGroup := g }

/-- The count the specification words: the number of distinct filtered words
that occur as a substring of the text. -/
def distinctWordsFound (text : List Nat) (filtered_words : List (List Nat)) : Nat :=
  (filtered_words.dedup.filter fun w => decide (w <:+: text)).length

/-- A chat event whose text holds `SPAM` and `spam`, and no other filtered
word. -/
def shoutedSpam : Message :=
  chatEvent 0 1 1 [120, 83, 80, 65, 77, 45, 115, 112, 97, 109]

/-- The removal command the moderator sends for user `u` of group `g`. -/
def removalCommand (g u : Int) : ModMessage :=
  { mtype := g + 1, group_id := g, user_id := u, removeUser := 1 }

/-- Scenario: user 1 of group 0 sends `spam` at timestamps 1 to 5. -/
def spamScenario : List Message :=
  [chatEvent 0 1 1 spam, chatEvent 0 1 2 spam, chatEvent 0 1 3 spam, chatEvent 0 1 4 spam,
   chatEvent 0 1 5 spam]

/-- A group-created event as a session sends it (topic 1). -/
def createdEvent (g : Nat) : Message :=
  { mtype := 1, timestamp := 0, user := 0, mtext := [], modifyingGroup := g }

/-- The messages of a list of sends that go to the given queue. -/
def sentTo (bus : Bus) (sends : List (Bus × Message)) : List Message :=
  (sends.filter fun p => decide (p.1 = bus)).map Prod.snd

/-- The bytes of `hello`. -/
def hello : List Nat := [104, 101, 108, 108, 111]

/-- The bytes of `world`. -/
def world : List Nat := [119, 111, 114, 108, 100]

/-- A cycle of a group of two users in which user 0 delivers the record
`1 0 hello` and the stream of user 1 is at its end. -/
def secondUserAtEof : CycleInput :=
  { reads := fun i => if i = 0 then .data (formatRecord 1 0 hello) else .eof
    queue := [] }

/-- A cycle in which every stream delivers the record `1 0 hello` and the
moderator queue holds a removal command for user 1 of group 0. -/
def allDeliver : CycleInput :=
  { reads := fun _ => .data (formatRecord 1 0 hello)
    queue := [removalCommand 0 1] }

/-- The state of a group of three users after user 1 has left `Active`. -/
def userOneInactive : GroupState :=
  { users_active := deactivate (initGroup 3).users_active 1
    total_active := 2
    user_removed_count := 0 }

/-- The result of the session's `read` of `MAX_TEXT_SIZE` bytes at the first
byte of a record the agent wrote. -/
def firstRead (buffer : List Nat) : ReadResult := .data (buffer.take MAX_TEXT_SIZE)

/-- Value of a run of decimal digits read from the left, from an accumulator. -/
def digitsValue (acc : Nat) (ds : List Nat) : Nat :=
  ds.foldl (fun a d => a * 10 + (d - 48)) acc

/-- A token of 255 bytes, all `a`. -/
def longToken : List Nat := List.replicate 255 97

/-- A token of 255 bytes that differs from `longToken` in its last three
bytes. -/
def otherLongToken : List Nat := List.replicate 252 97 ++ [98, 98, 98]

/-- The script `1 hello`, `abc def`, `2 world`, one per line; its second line
has no timestamp. -/
def scriptWithMalformedLine : List Nat :=
  [49, 32] ++ hello ++ [10] ++ [97, 98, 99, 32, 100, 101, 102, 10] ++ [50, 32] ++ world ++ [10]

/-- The script `1 hello`, `2 world`: the former one without its second line. -/
def scriptWithoutMalformedLine : List Nat :=
  [49, 32] ++ hello ++ [10] ++ [50, 32] ++ world ++ [10]

/-! ## Start of the orchestrator and of a group session -/

/-- How a start-up section is left: it ran to its end, it called
`exit(EXIT_FAILURE)`, or it indexed an array outside its bounds. -/
inductive Outcome
  | completed
  | exitFailure
  | undefined
deriving DecidableEq, Repr

/-- The orchestrator from the capacity test to the end of its spawn loop
(app.c, lines 46-122), the group files being present: the indices of the group
sessions it has spawned and how the section is left. -/
def orchestratorSpawn (n : Int) : List Nat × Outcome :=
  if orchestratorAccepts n then (List.range n.toNat, .completed) else ([], .exitFailure)

/-- What the start of a session does that is visible outside it: a `msgsnd`,
the `fork` that starts the agent of user `i`. -/
inductive StartupEffect
  | send (bus : Bus) (msg : Message)
  | fork (i : Nat)
deriving DecidableEq, Repr

/-- The loop that reads the user file names into `user_files[MAX_USERS]`
(groups.c, lines 67-76). It compares `initial_users` with nothing; a count
above `MAX_USERS` runs past the array. -/
def readUserFiles (initial_users : Nat) : Outcome :=
  if initial_users ≤ MAX_USERS then .completed else .undefined

/-- The user-joined message of user `i` (groups.c, lines 196-201). -/
def joinedEvent (group_index i : Nat) : Message :=
  { mtype := 2, timestamp := 0, user := i, mtext := [], modifyingGroup := group_index }

/-- The spawn loop `for (i = 0; i < initial_users; i++)` of a session
(groups.c, lines 127-215) from index `i` with the given number of iterations
left and the value of `group_user_count[group_index]`. Each iteration calls
`pipe(pipes[i])` and `fork()`, then tests the count against `MAX_USERS`, then
sends the user-joined message. `pipes[i]` with `i` outside `pipes[MAX_USERS]`
has no defined result. `pipe`, `fork` and `msgsnd` are taken to succeed. -/
def spawnLoop (group_index : Nat) : Nat → Nat → Int → List StartupEffect × Outcome
  | 0, _, _ => ([], .completed)
  | remaining + 1, i, group_user_count =>
    if i < MAX_USERS then
      if group_user_count ≥ MAX_USERS then ([StartupEffect.fork i], .exitFailure)
      else
        (StartupEffect.fork i
            :: StartupEffect.send Bus.validation (joinedEvent group_index i)
            :: (spawnLoop group_index remaining (i + 1) (group_user_count + 1)).1,
          (spawnLoop group_index remaining (i + 1) (group_user_count + 1)).2)
    else ([], .undefined)

/-- The effect is the `fork` of a user agent. -/
def StartupEffect.isFork : StartupEffect → Bool
  | .fork _ => true
  | .send _ _ => false

/-- The effect is the sending of a user-joined message (type 2). -/
def StartupEffect.isJoined : StartupEffect → Bool
  | .fork _ => false
  | .send _ msg => decide (msg.mtype = 2)

/-! ## The pipe between an agent and its session -/

/-- The successive results of `read(pipes[i][0], buffer, 256)` on a pipe that
holds the given bytes, all of them available, and whose write end is closed:
256 bytes at a time, the rest, then end of stream. The first argument bounds
the number of reads. -/
def pipeReads : Nat → List Nat → List ReadResult
  | 0, _ => [.eof]
  | fuel + 1, bytes =>
    if bytes.isEmpty then [.eof]
    else .data (bytes.take MAX_TEXT_SIZE) :: pipeReads fuel (bytes.drop MAX_TEXT_SIZE)

/-- The cycles of a group of two users in which the reads on the pipe of user
0 give the listed results in turn, the pipe of user 1 has nothing to deliver
and no removal command is waiting. -/
def cyclesOfUserZero (results : List ReadResult) : List CycleInput :=
  results.map fun r => { reads := fun i => if i = 0 then r else .error, queue := [] }

/-- The messages a trace sends to the given queue, in order. -/
def forwardedTo (bus : Bus) : List Effect → List Message
  | [] => []
  | .send _ b msg :: rest => if b = bus then msg :: forwardedTo bus rest else forwardedTo bus rest
  | _ :: rest => forwardedTo bus rest

/-- The chat events forwarded to the validation queue by a session of two
users when the agent of user 0 has written its whole script to the pipe and
closed it, and the session reads that pipe to its end. -/
def forwardedFromScript (script : List Nat) : Option (List Message) :=
  match userAgent 0 script with
  | none => none
  | some buffers =>
    (mainLoop 0 2 (initGroup 2)
        (cyclesOfUserZero (pipeReads buffers.flatten.length buffers.flatten))).map
      fun r => forwardedTo Bus.validation r.trace

/-- A removal command of group 0 that names index 5. -/
def removalOfIndexFive : ModMessage :=
  { mtype := 1, group_id := 0, user_id := 5, removeUser := 1 }

/-- A cycle of a group of two users in which neither stream delivers anything
and the removal command naming index 5 is waiting. -/
def strayRemovalCycle : CycleInput :=
  { reads := fun _ => .error
    queue := [removalOfIndexFive] }

set_option maxRecDepth 100000

/-! ## Arithmetic of `int` -/

theorem wrapInt_of_fits (x : Int) (hlo : INT_MIN ≤ x) (hhi : x ≤ INT_MAX) : wrapInt x = x := by
  unfold INT_MIN at hlo
  unfold INT_MAX at hhi
  unfold wrapInt
  rw [Int.emod_eq_of_lt (by omega) (by omega)]
  omega

/-! ## The moderator's scoring -/

theorem strstr_iff_occurs (text w : List Nat) : strstr text w = true ↔ w <:+: text := by
  induction text with
  | nil => simp [strstr, List.isEmpty_iff]
  | cons c cs ih =>
    rw [strstr, Bool.or_eq_true, ih, List.infix_cons_iff, List.isPrefixOf_iff_prefix]

theorem localViolations_eq_filter (text : List Nat) (ws : List (List Nat)) :
    localViolations text ws = (ws.filter fun w => strstr text w).length := by
  induction ws with
  | nil => rfl
  | cons w ws ih =>
    by_cases h : strstr text w = true
    · simp [localViolations, h, ih, Nat.add_comm]
    · simp [localViolations, h, ih]

theorem localViolations_le (text : List Nat) (ws : List (List Nat)) :
    localViolations text ws ≤ ws.length := by
  rw [localViolations_eq_filter]
  exact List.length_filter_le _ _

theorem toLowerCase_length (s : List Nat) : (toLowerCase s).length = s.length := by
  simp [toLowerCase]

theorem toLowerCase_take (n : Nat) (s : List Nat) :
    toLowerCase (s.take n) = (toLowerCase s).take n := by
  simp [toLowerCase, List.map_take]

/-! ## The moderator's loop -/

theorem isChat_false_iff (msg : Message) :
    isChat msg = false ↔ (msg.mtype = 1 ∨ msg.mtype = 2 ∨ msg.mtype = 3) := by
  simp only [isChat, Bool.not_eq_false', Bool.or_eq_true, decide_eq_true_eq]
  tauto

theorem isChat_true_iff (msg : Message) :
    isChat msg = true ↔ ¬ (msg.mtype = 1 ∨ msg.mtype = 2 ∨ msg.mtype = 3) := by
  rw [← isChat_false_iff]
  simp

theorem loopBody_admin (thr : Int) (ws : List (List Nat)) (v : Violations) (msg : Message)
    (h : isChat msg = false) : loopBody thr ws v msg = some (v, []) := by
  rw [isChat_false_iff] at h
  simp [loopBody, h]

/-- The loop body on a chat event inside the table whose addition does not
overflow: the counter grows by the hit count and a removal command is sent
exactly at a crossing of the threshold. -/
theorem loopBody_chat (thr : Int) (ws : List (List Nat)) (v : Violations) (msg : Message)
    (hchat : isChat msg = true) (htab : inTable msg)
    (hlo : INT_MIN ≤ v msg.modifyingGroup msg.user)
    (hhi : v msg.modifyingGroup msg.user + (localViolations (textLower msg) ws : Nat) ≤ INT_MAX) :
    loopBody thr ws v msg =
      some (setViolations v msg.modifyingGroup msg.user
              (v msg.modifyingGroup msg.user + (localViolations (textLower msg) ws : Nat)),
            if thr ≤ v msg.modifyingGroup msg.user + (localViolations (textLower msg) ws : Nat)
                ∧ v msg.modifyingGroup msg.user < thr
                ∧ 0 < localViolations (textLower msg) ws then
              [{ mtype := msg.modifyingGroup + 1, group_id := msg.modifyingGroup,
                 user_id := msg.user, removeUser := 1 }]
            else []) := by
  rw [isChat_true_iff] at hchat
  have hk : (0 : Int) ≤ (localViolations (textLower msg) ws : Nat) := Int.natCast_nonneg _
  have hw1 : wrapInt (v msg.modifyingGroup msg.user + (localViolations (textLower msg) ws : Nat))
      = v msg.modifyingGroup msg.user + (localViolations (textLower msg) ws : Nat) :=
    wrapInt_of_fits _ (by omega) hhi
  have hw2 : wrapInt (v msg.modifyingGroup msg.user + (localViolations (textLower msg) ws : Nat)
      - (localViolations (textLower msg) ws : Nat)) = v msg.modifyingGroup msg.user := by
    rw [wrapInt_of_fits _ (by omega) (by omega)]; omega
  unfold inTable at htab
  simp only [loopBody, hchat, if_false, htab, and_self, if_true, hw1, hw2]
  by_cases h1 : thr ≤ v msg.modifyingGroup msg.user + (localViolations (textLower msg) ws : Nat)
  · by_cases h2 : 0 < localViolations (textLower msg) ws
    · by_cases h3 : v msg.modifyingGroup msg.user < thr
      · simp [h1, h2, h3]
      · simp [h1, h2, h3]
    · simp [h1, h2]
  · simp [h1]

/-- The removal commands of one loop body on a chat event: at most one names a
pair, and one is sent only for the pair of the event at a crossing. -/
theorem loopBody_chat_sent (thr : Int) (ws : List (List Nat)) (v : Violations) (msg : Message)
    (hchat : isChat msg = true) (htab : inTable msg)
    (hlo : INT_MIN ≤ v msg.modifyingGroup msg.user)
    (hhi : v msg.modifyingGroup msg.user + (localViolations (textLower msg) ws : Nat) ≤ INT_MAX) :
    ∃ sent, loopBody thr ws v msg =
        some (setViolations v msg.modifyingGroup msg.user
              (v msg.modifyingGroup msg.user + (localViolations (textLower msg) ws : Nat)), sent)
      ∧ ∀ g u, removalsNaming g u sent ≤ 1
          ∧ (removalsNaming g u sent ≠ 0 →
              g = msg.modifyingGroup ∧ u = msg.user ∧ v msg.modifyingGroup msg.user < thr
                ∧ thr ≤ v msg.modifyingGroup msg.user + (localViolations (textLower msg) ws : Nat)) := by
  refine ⟨_, loopBody_chat thr ws v msg hchat htab hlo hhi, ?_⟩
  intro g u
  split
  · rename_i hc
    by_cases hp : msg.modifyingGroup = g ∧ msg.user = u
    · have : removalsNaming g u
          [ModMessage.mk (msg.modifyingGroup + 1) msg.modifyingGroup msg.user 1] = 1 := by
        simp [removalsNaming, hp]
      rw [this]
      exact ⟨le_refl _, fun _ => ⟨hp.1.symm, hp.2.symm, hc.2.1, hc.1⟩⟩
    · have : removalsNaming g u
          [ModMessage.mk (msg.modifyingGroup + 1) msg.modifyingGroup msg.user 1] = 0 := by
        simp only [removalsNaming, List.length_eq_zero, List.filter_eq_nil_iff,
          List.mem_singleton, forall_eq, Bool.and_eq_true, decide_eq_true_eq]
        exact hp
      rw [this]
      simp
  · simp [removalsNaming]

theorem attributedHits_nonneg (ws : List (List Nat)) (g u : Int) (msgs : List Message) :
    0 ≤ attributedHits ws g u msgs := by
  induction msgs with
  | nil => simp [attributedHits]
  | cons m rest ih =>
    unfold attributedHits
    split
    · have : (0 : Int) ≤ (localViolations (textLower m) ws : Nat) := Int.natCast_nonneg _
      omega
    · omega

theorem removalsNaming_append (g u : Int) (a b : List ModMessage) :
    removalsNaming g u (a ++ b) = removalsNaming g u a + removalsNaming g u b := by
  simp [removalsNaming]

/-- The moderator's loop from any table whose counters fit an `int` together
with the hits still to come: the run is defined, every counter has grown by
the hits attributed to its pair, and a pair is named by at most one removal
command, by none when its counter had reached the threshold before. -/
theorem moderate_spec (thr : Int) (ws : List (List Nat)) (msgs : List Message) :
    ∀ v : Violations,
      (∀ m ∈ msgs, isChat m = true → inTable m) →
      (∀ g u, INT_MIN ≤ v g u ∧ v g u + attributedHits ws g u msgs ≤ INT_MAX) →
      ∃ v1 sent, moderate thr ws v msgs = some (v1, sent)
        ∧ (∀ g u, v1 g u = v g u + attributedHits ws g u msgs)
        ∧ (∀ g u, removalsNaming g u sent ≤ 1 ∧ (thr ≤ v g u → removalsNaming g u sent = 0)) := by
  induction msgs with
  | nil =>
    intro v _ _
    exact ⟨v, [], rfl, by simp [attributedHits], by simp [removalsNaming]⟩
  | cons m rest ih =>
    intro v htab hfit
    have htab1 : ∀ x ∈ rest, isChat x = true → inTable x :=
      fun x hx => htab x (List.mem_cons_of_mem _ hx)
    by_cases hchat : isChat m = true
    · have hin : inTable m := htab m (List.mem_cons_self _ _) hchat
      have hattr : attributedTo m.modifyingGroup m.user m = true := by
        simp [attributedTo, hchat]
      have hrest := attributedHits_nonneg ws m.modifyingGroup m.user rest
      have hk : (0 : Int) ≤ (localViolations (textLower m) ws : Nat) := Int.natCast_nonneg _
      have hcell := hfit m.modifyingGroup m.user
      simp only [attributedHits, hattr, if_true] at hcell
      obtain ⟨sent1, hstep, hsent1⟩ := loopBody_chat_sent thr ws v m hchat hin hcell.1 (by omega)
      have hfit1 : ∀ g u, INT_MIN ≤ setViolations v m.modifyingGroup m.user
            (v m.modifyingGroup m.user + (localViolations (textLower m) ws : Nat)) g u
          ∧ setViolations v m.modifyingGroup m.user
            (v m.modifyingGroup m.user + (localViolations (textLower m) ws : Nat)) g u
            + attributedHits ws g u rest ≤ INT_MAX := by
        intro g u
        have hgu := hfit g u
        by_cases hp : g = m.modifyingGroup ∧ u = m.user
        · obtain ⟨hg, hu⟩ := hp
          subst hg; subst hu
          simp only [setViolations, and_self, if_true]
          constructor <;> omega
        · have hna : attributedTo g u m = false := by
            simp only [attributedTo, hchat, Bool.true_and, Bool.and_eq_false_iff,
              decide_eq_false_iff_not]
            by_contra hc
            push_neg at hc
            exact hp ⟨hc.1.symm, hc.2.symm⟩
          simp only [attributedHits, hna] at hgu
          simp only [setViolations, hp, if_false]
          simpa using hgu
      obtain ⟨v2, sent2, hrun, hval, hrem⟩ := ih _ htab1 hfit1
      refine ⟨v2, sent1 ++ sent2, ?_, ?_, ?_⟩
      · simp only [moderate, hstep, hrun]
      · intro g u
        rw [hval g u]
        by_cases hp : g = m.modifyingGroup ∧ u = m.user
        · obtain ⟨hg, hu⟩ := hp
          subst hg; subst hu
          simp only [setViolations, and_self, if_true, attributedHits, hattr]
          omega
        · have hna : attributedTo g u m = false := by
            simp only [attributedTo, hchat, Bool.true_and, Bool.and_eq_false_iff,
              decide_eq_false_iff_not]
            by_contra hc
            push_neg at hc
            exact hp ⟨hc.1.symm, hc.2.symm⟩
          simp [setViolations, hp, attributedHits, hna]
      · intro g u
        rw [removalsNaming_append]
        obtain ⟨hle, hzero⟩ := hrem g u
        obtain ⟨hle1, hone⟩ := hsent1 g u
        by_cases hs : removalsNaming g u sent1 = 0
        · rw [hs]
          refine ⟨by omega, ?_⟩
          intro hge
          by_cases hp : g = m.modifyingGroup ∧ u = m.user
          · obtain ⟨hg, hu⟩ := hp
            subst hg; subst hu
            simp only [setViolations, and_self, if_true] at hzero
            have := hzero (by omega)
            omega
          · simp only [setViolations, hp, if_false] at hzero
            have := hzero hge
            omega
        · obtain ⟨hg, hu, hlt, hcross⟩ := hone hs
          subst hg; subst hu
          simp only [setViolations, and_self, if_true] at hzero
          have := hzero hcross
          refine ⟨by omega, ?_⟩
          intro hge
          omega
    · have hadm : isChat m = false := by simpa using hchat
      have hstep := loopBody_admin thr ws v m hadm
      have hfit1 : ∀ g u, INT_MIN ≤ v g u ∧ v g u + attributedHits ws g u rest ≤ INT_MAX := by
        intro g u
        have hgu := hfit g u
        simpa [attributedHits, attributedTo, hadm] using hgu
      obtain ⟨v2, sent2, hrun, hval, hrem⟩ := ih v htab1 hfit1
      refine ⟨v2, sent2, ?_, ?_, ?_⟩
      · simp only [moderate, hstep, hrun, List.nil_append]
      · intro g u
        rw [hval g u]
        simp [attributedHits, attributedTo, hadm]
      · exact hrem

theorem attributedHits_le_length (ws : List (List Nat)) (g u : Int) (msgs : List Message) :
    attributedHits ws g u msgs ≤ ((msgs.length * ws.length : Nat) : Int) := by
  induction msgs with
  | nil => simp [attributedHits]
  | cons m rest ih =>
    have hk := localViolations_le (textLower m) ws
    have hk0 : (0 : Int) ≤ (ws.length : Nat) := Int.natCast_nonneg _
    simp only [attributedHits, List.length_cons, Nat.add_mul, Nat.one_mul, Nat.cast_add]
    split
    · have : ((localViolations (textLower m) ws : Nat) : Int) ≤ (ws.length : Nat) := by
        exact_mod_cast hk
      omega
    · omega

/-! ## Claims on the moderation engine -/

/-- C1: over a whole sequence of messages processed from the all-zero table,
the moderator's loop is defined and emits at most one removal command naming
any given pair (group, user). The sequence is one whose chat events index the
table inside its bounds and whose counters stay in the range of `int`. -/
theorem at_most_one_removal_per_pair (thr : Int) (ws : List (List Nat)) (msgs : List Message)
    (g u : Int)
    (htab : ∀ m ∈ msgs, isChat m = true → inTable m)
    (hfit : ∀ g1 u1, attributedHits ws g1 u1 msgs ≤ INT_MAX) :
    ∃ v sent, moderate thr ws zeroViolations msgs = some (v, sent)
      ∧ removalsNaming g u sent ≤ 1 := by
  obtain ⟨v, sent, hrun, _, hrem⟩ := moderate_spec thr ws msgs zeroViolations htab
    (fun g1 u1 => ⟨by simp [zeroViolations, INT_MIN], by simpa [zeroViolations] using hfit g1 u1⟩)
  exact ⟨v, sent, hrun, (hrem g u).1⟩

/-- C1, scenario of the specification: threshold 3, words spam and scam, user 1
of group 0 sends spam five times; nothing is sent after two messages, the one
removal command after the third, and no other after the fifth. -/
theorem at_most_one_removal_per_pair_witness :
    (moderate 3 [spam, scam] zeroViolations (spamScenario.take 2)).map Prod.snd = some []
      ∧ (moderate 3 [spam, scam] zeroViolations (spamScenario.take 3)).map Prod.snd
          = some [removalCommand 0 1]
      ∧ (moderate 3 [spam, scam] zeroViolations spamScenario).map Prod.snd
          = some [removalCommand 0 1]
      ∧ ∃ v sent, moderate 3 [spam, scam] zeroViolations spamScenario = some (v, sent)
          ∧ removalsNaming 0 1 sent ≤ 1 :=
  ⟨by decide, by decide, by decide,
    at_most_one_removal_per_pair 3 [spam, scam] spamScenario 0 1 (by decide)
      (fun g1 u1 => le_trans (attributedHits_le_length [spam, scam] g1 u1 spamScenario)
        (by decide))⟩

/-- C2: on one chat event inside the table, with counter `before`, contribution
`k` and no overflow, the loop body stores `before + k` and sends a removal
command exactly when `before + k ≥ threshold`, `before < threshold` and
`k > 0`; it is then the single message with topic `g + 1`, `group_id = g`,
`user_id = u`, `removeUser = 1`. -/
theorem removal_exactly_at_crossing (thr : Int) (ws : List (List Nat)) (v : Violations)
    (msg : Message) (hchat : isChat msg = true) (htab : inTable msg)
    (hlo : INT_MIN ≤ v msg.modifyingGroup msg.user)
    (hhi : v msg.modifyingGroup msg.user + (localViolations (textLower msg) ws : Nat) ≤ INT_MAX) :
    ∃ v1 sent, loopBody thr ws v msg = some (v1, sent)
      ∧ v1 msg.modifyingGroup msg.user
          = v msg.modifyingGroup msg.user + (localViolations (textLower msg) ws : Nat)
      ∧ sent =
          (if thr ≤ v msg.modifyingGroup msg.user + (localViolations (textLower msg) ws : Nat)
              ∧ v msg.modifyingGroup msg.user < thr
              ∧ 0 < localViolations (textLower msg) ws then
            [{ mtype := msg.modifyingGroup + 1, group_id := msg.modifyingGroup,
               user_id := msg.user, removeUser := 1 }]
          else []) := by
  refine ⟨_, _, loopBody_chat thr ws v msg hchat htab hlo hhi, ?_, rfl⟩
  simp [setViolations]

/-- C2 at a jump: threshold 3, counter 2, one message with both filtered words
takes the counter to 4, and exactly one removal command is sent. -/
theorem removal_exactly_at_crossing_witness :
    ∃ v1 sent, loopBody 3 [spam, scam] (setViolations zeroViolations 0 1 2)
          (chatEvent 0 1 9 (spam ++ scam)) = some (v1, sent)
      ∧ v1 0 1 = 4 ∧ sent = [removalCommand 0 1] := by
  obtain ⟨v1, sent, h1, h2, h3⟩ := removal_exactly_at_crossing 3 [spam, scam]
    (setViolations zeroViolations 0 1 2) (chatEvent 0 1 9 (spam ++ scam))
    (by decide) (by decide) (by decide) (by decide)
  refine ⟨v1, sent, h1, ?_, ?_⟩
  · rw [show (0 : Int) = (chatEvent 0 1 9 (spam ++ scam)).modifyingGroup from rfl,
      show (1 : Int) = (chatEvent 0 1 9 (spam ++ scam)).user from rfl, h2]
    decide
  · rw [h3]
    decide

theorem loadFilteredWords_eq (tokens : List (List Nat)) (words : List (List Nat))
    (h : loadFilteredWords tokens = some words) :
    words = (tokens.take MAX_FILTERED).map toLowerCase := by
  unfold loadFilteredWords at h
  split at h
  · exact (Option.some.inj h).symm
  · exact absurd h (by simp)

theorem all_length_map_toLowerCase (l : List (List Nat)) :
    ((l.map toLowerCase).all fun w => decide (w.length ≤ MAX_WORD_LEN))
      = l.all fun w => decide (w.length ≤ MAX_WORD_LEN) := by
  induction l with
  | nil => rfl
  | cons w ws ih => simp [List.all_cons, toLowerCase_length, ih]

theorem loadFilteredWords_case (tokens tokens2 : List (List Nat))
    (h : tokens2.map toLowerCase = tokens.map toLowerCase) :
    loadFilteredWords tokens2 = loadFilteredWords tokens := by
  have hm : (tokens2.take MAX_FILTERED).map toLowerCase
      = (tokens.take MAX_FILTERED).map toLowerCase := by
    rw [List.map_take, List.map_take, h]
  unfold loadFilteredWords
  rw [← all_length_map_toLowerCase (tokens2.take MAX_FILTERED),
    ← all_length_map_toLowerCase (tokens.take MAX_FILTERED), hm]

theorem textLower_case (msg msg2 : Message)
    (h : toLowerCase msg2.mtext = toLowerCase msg.mtext) : textLower msg2 = textLower msg := by
  unfold textLower
  rw [toLowerCase_take, toLowerCase_take, h]

theorem localViolations_eq_occurrences (text : List Nat) (ws : List (List Nat)) :
    localViolations text ws = (ws.filter fun w => decide (w <:+: text)).length := by
  rw [localViolations_eq_filter]
  congr 1
  apply List.filter_congr
  intro w _
  by_cases h : w <:+: text
  · simp [h, (strstr_iff_occurs text w).2 h]
  · have : strstr text w = false := by
      simpa using fun hs => h ((strstr_iff_occurs text w).1 hs)
    simp [h, this]

/-- C4, what the code does: with `spam` and `Spam` in the file the loaded list
is `spam, spam`, and a text holding `spam` scores 2, while one distinct
filtered word occurs in it and the list has one distinct word. -/
theorem contribution_counts_duplicate_entries :
    loadFilteredWords [spam, spamCapital] = some [spam, spam]
      ∧ localViolations (textLower (chatEvent 0 1 1 spam)) [spam, spam] = 2
      ∧ distinctWordsFound (textLower (chatEvent 0 1 1 spam)) [spam, spam] = 1
      ∧ ([spam, spam] : List (List Nat)).dedup.length = 1 := by
  decide

/-- The counting loop entry by entry: the contribution is the number of
entries of the loaded list that occur as a substring of the lowercased text;
the list has at most 50 entries and the contribution is at most their number;
when no entry is repeated it is the number of distinct filtered words that
occur; it depends on the words of the file and on the text only through their
lowercased forms. -/
theorem contribution_counts_entries (tokens words : List (List Nat)) (msg : Message)
    (hload : loadFilteredWords tokens = some words) :
    words.length ≤ MAX_FILTERED
      ∧ localViolations (textLower msg) words
          = (words.filter fun w => decide (w <:+: textLower msg)).length
      ∧ localViolations (textLower msg) words ≤ words.length
      ∧ (words.Nodup →
          localViolations (textLower msg) words = distinctWordsFound (textLower msg) words)
      ∧ ∀ tokens2 msg2, tokens2.map toLowerCase = tokens.map toLowerCase →
          toLowerCase msg2.mtext = toLowerCase msg.mtext →
          loadFilteredWords tokens2 = some words
            ∧ localViolations (textLower msg2) words = localViolations (textLower msg) words := by
  refine ⟨?_, localViolations_eq_occurrences _ _, localViolations_le _ _, ?_, ?_⟩
  · rw [loadFilteredWords_eq tokens words hload]
    simp [List.length_take]
  · intro hnd
    rw [localViolations_eq_occurrences, distinctWordsFound, hnd.dedup]
  · intro tokens2 msg2 ht hm
    rw [loadFilteredWords_case tokens tokens2 ht, textLower_case msg msg2 hm]
    exact ⟨hload, rfl⟩

/-- On the file `Spam`, `scam` and a text with `SPAM` and `spam`:
the loaded list is `spam`, `scam` and the contribution is 1. -/
theorem contribution_counts_entries_witness :
    loadFilteredWords [spamCapital, scam] = some [spam, scam]
      ∧ localViolations (textLower shoutedSpam) [spam, scam] = 1
      ∧ localViolations (textLower shoutedSpam) [spam, scam]
          = distinctWordsFound (textLower shoutedSpam) [spam, scam] :=
  ⟨by decide, by decide,
    (contribution_counts_entries [spamCapital, scam] [spam, scam] shoutedSpam
      (by decide)).2.2.2.1 (by decide)⟩

/-! ## The group session: counting the active users -/

theorem activeCount_succ (n : Nat) (st : GroupState) :
    activeCount (n + 1) st = activeCount n st + (if st.users_active n ≠ 0 then 1 else 0) := by
  unfold activeCount
  rw [List.range_succ, List.filter_append, List.length_append]
  by_cases h : st.users_active n = 0
  · simp [h]
  · simp [h]

theorem activeCount_deactivate (i : Nat) (st st1 : GroupState)
    (h : st1.users_active = deactivate st.users_active i) (n : Nat) :
    activeCount n st1 + (if i < n ∧ st.users_active i ≠ 0 then 1 else 0) = activeCount n st := by
  induction n with
  | zero => simp [activeCount]
  | succ n ih =>
    rw [activeCount_succ, activeCount_succ, h]
    by_cases hi : n = i
    · subst hi
      have hlt : ¬ (n < n ∧ st.users_active n ≠ 0) := fun hc => absurd hc.1 (Nat.lt_irrefl _)
      rw [if_neg hlt] at ih
      by_cases ha : st.users_active n = 0
      · simp [deactivate, ha] at *
        omega
      · simp [deactivate, ha] at *
        omega
    · have hd : deactivate st.users_active i n = st.users_active n := by
        simp [deactivate, hi]
      rw [hd]
      by_cases ha : st.users_active i = 0
      · simp [ha] at *
        omega
      · by_cases hlt : i < n
        · have hlt1 : i < n + 1 := by omega
          simp [ha, hlt, hlt1] at *
          omega
        · have hlt1 : ¬ i < n + 1 := by omega
          simp [ha, hlt, hlt1] at *
          omega

/-- Marking an active user of the group inactive and decrementing
`total_active` keeps `total_active` equal to the number of active users. -/
theorem counter_kept_by_deactivation (n i : Nat) (st st1 : GroupState) (hi : i < n)
    (hact : st.users_active i ≠ 0)
    (hua : st1.users_active = deactivate st.users_active i)
    (htot : st1.total_active = st.total_active - 1)
    (hinv : st.total_active = activeCount n st) :
    st1.total_active = activeCount n st1 := by
  have h := activeCount_deactivate i st st1 hua n
  rw [if_pos ⟨hi, hact⟩] at h
  rw [htot, hinv]
  omega

theorem userPass_keeps_counter (g n : Nat) (reads : Nat → ReadResult) (is : List Nat) :
    ∀ (st : GroupState) (all_empty : Bool),
      (∀ i ∈ is, i < n ∧ i < MAX_USERS) →
      st.total_active = activeCount n st →
      ∃ st1 t b, userPass g reads is st all_empty = some (st1, t, b)
        ∧ st1.total_active = activeCount n st1 := by
  induction is with
  | nil =>
    intro st all_empty _ hinv
    exact ⟨st, [], all_empty, rfl, hinv⟩
  | cons i is ih =>
    intro st all_empty hb hinv
    have hi := hb i (List.mem_cons_self _ _)
    have hb1 : ∀ j ∈ is, j < n ∧ j < MAX_USERS := fun j hj => hb j (List.mem_cons_of_mem _ hj)
    unfold userPass
    rw [if_pos hi.2]
    by_cases hact : st.users_active i = 0
    · rw [if_pos hact]
      exact ih st all_empty hb1 hinv
    · rw [if_neg hact]
      cases hr : reads i with
      | data bytes =>
        obtain ⟨st1, t, b, hrun, hinv1⟩ := ih st false hb1 hinv
        dsimp only
        cases hp : sscanfRecord (readBuffer bytes) with
        | none => simp only [hrun, Option.map_some']; exact ⟨_, _, _, rfl, hinv1⟩
        | some rec =>
          obtain ⟨ts, usr, msgText⟩ := rec
          simp only [hrun, Option.map_some']; exact ⟨_, _, _, rfl, hinv1⟩
      | eof =>
        obtain ⟨st1, t, b, hrun, hinv1⟩ := ih
          { st with users_active := deactivate st.users_active i
                    total_active := st.total_active - 1 } all_empty hb1
          (counter_kept_by_deactivation n i st _ hi.1 hact rfl rfl hinv)
        simp only [hrun, Option.map_some']; exact ⟨_, _, _, rfl, hinv1⟩
      | error =>
        obtain ⟨st1, t, b, hrun, hinv1⟩ := ih st all_empty hb1 hinv
        simp only [hrun, Option.map_some']; exact ⟨_, _, _, rfl, hinv1⟩

theorem applyRemoval_keeps_counter (n : Nat) (hn : n ≤ MAX_USERS) (m : ModMessage)
    (st : GroupState) (hm : 0 ≤ m.user_id ∧ m.user_id < n)
    (hinv : st.total_active = activeCount n st) :
    ∃ st1 t, applyRemoval m st = some (st1, t) ∧ st1.total_active = activeCount n st1 := by
  have hlt : m.user_id.toNat < n := by omega
  have hb : 0 ≤ m.user_id ∧ m.user_id < (MAX_USERS : Nat) := by omega
  unfold applyRemoval
  by_cases h1 : m.removeUser = 1
  · rw [if_pos h1, if_pos hb]
    by_cases hact : st.users_active m.user_id.toNat = 0
    · rw [if_pos hact]; exact ⟨_, _, rfl, hinv⟩
    · rw [if_neg hact]
      exact ⟨_, _, rfl, counter_kept_by_deactivation n _ st _ hlt hact rfl rfl hinv⟩
  · rw [if_neg h1]; exact ⟨_, _, rfl, hinv⟩

theorem drain_keeps_counter (n : Nat) (hn : n ≤ MAX_USERS) (ms : List ModMessage) :
    ∀ st : GroupState, (∀ m ∈ ms, 0 ≤ m.user_id ∧ m.user_id < n) →
      st.total_active = activeCount n st →
      ∃ st1 t, drain ms st = some (st1, t) ∧ st1.total_active = activeCount n st1 := by
  induction ms with
  | nil => intro st _ hinv; exact ⟨st, [], rfl, hinv⟩
  | cons m ms ih =>
    intro st hb hinv
    obtain ⟨st1, t1, h1, hinv1⟩ :=
      applyRemoval_keeps_counter n hn m st (hb m (List.mem_cons_self _ _)) hinv
    obtain ⟨st2, t2, h2, hinv2⟩ := ih st1 (fun x hx => hb x (List.mem_cons_of_mem _ hx)) hinv1
    exact ⟨st2, t1 ++ t2, by simp only [drain, h1, h2], hinv2⟩

theorem cycle_keeps_counter (g n : Nat) (hn : n ≤ MAX_USERS) (c : CycleInput) (st : GroupState)
    (hq : ∀ m ∈ drained g c.queue, 0 ≤ m.user_id ∧ m.user_id < n)
    (hinv : st.total_active = activeCount n st) :
    ∃ st1 t, cycle g n c st = some (st1, t) ∧ st1.total_active = activeCount n st1 := by
  obtain ⟨st1, t1, b, h1, hinv1⟩ := userPass_keeps_counter g n c.reads (List.range n) st true
    (fun i hi => by have := List.mem_range.1 hi; omega) hinv
  obtain ⟨st2, t2, h2, hinv2⟩ := drain_keeps_counter n hn (drained g c.queue) st1 hq hinv1
  exact ⟨st2, t1 ++ t2 ++ (if b then [Effect.usleep] else []),
    by simp only [cycle, cycleFrom, h1, h2], hinv2⟩

theorem activeCount_initGroup (n k : Nat) : activeCount k (initGroup n) = k := by
  induction k with
  | zero => simp [activeCount]
  | succ k ih => rw [activeCount_succ, ih]; simp [initGroup]

/-- The main loop from any state whose `total_active` is the number of active
users: the run is defined, the equality holds at every test of the loop, the
loop goes on at every test but the last, and it has ended exactly when fewer
than two users are active at the last test. -/
theorem mainLoop_counts (g n : Nat) (hn : n ≤ MAX_USERS) (cs : List CycleInput) :
    ∀ st : GroupState,
      (∀ c ∈ cs, ∀ m ∈ drained g c.queue, 0 ≤ m.user_id ∧ m.user_id < n) →
      st.total_active = activeCount n st →
      ∃ r, mainLoop g n st cs = some r
        ∧ r.boundaries.head? = some st
        ∧ (∀ s ∈ r.boundaries, s.total_active = activeCount n s)
        ∧ (∀ s ∈ r.boundaries.dropLast, 2 ≤ activeCount n s)
        ∧ (∃ last, r.boundaries.getLast? = some last
            ∧ (r.ended = true ↔ activeCount n last < 2))
        ∧ (r.ended = false → r.boundaries.length = cs.length + 1) := by
  induction cs with
  | nil =>
    intro st _ hinv
    unfold mainLoop
    by_cases h : st.total_active < 2
    · rw [if_pos h]
      refine ⟨_, rfl, rfl, ?_, ?_, ⟨st, rfl, ?_⟩, ?_⟩
      · intro s hs; simp at hs; rw [hs]; exact hinv
      · intro s hs; simp at hs
      · simp only [true_iff]; omega
      · intro hc; simp at hc
    · rw [if_neg h]
      refine ⟨_, rfl, rfl, ?_, ?_, ⟨st, rfl, ?_⟩, ?_⟩
      · intro s hs; simp at hs; rw [hs]; exact hinv
      · intro s hs; simp at hs
      · simp only [Bool.false_eq_true, false_iff]; omega
      · intro _; rfl
  | cons c rest ih =>
    intro st hq hinv
    unfold mainLoop
    by_cases h : st.total_active < 2
    · rw [if_pos h]
      refine ⟨_, rfl, rfl, ?_, ?_, ⟨st, rfl, ?_⟩, ?_⟩
      · intro s hs; simp at hs; rw [hs]; exact hinv
      · intro s hs; simp at hs
      · simp only [true_iff]; omega
      · intro hc; simp at hc
    · rw [if_neg h]
      obtain ⟨st1, t1, hc, hinv1⟩ :=
        cycle_keeps_counter g n hn c st (hq c (List.mem_cons_self _ _)) hinv
      obtain ⟨r, hr, hhead, hall, hdrop, ⟨last, hlast, hend⟩, hlen⟩ :=
        ih st1 (fun x hx => hq x (List.mem_cons_of_mem _ hx)) hinv1
      have hne : r.boundaries ≠ [] := by
        intro he; rw [he] at hhead; simp at hhead
      obtain ⟨b, bs, hb⟩ := List.exists_cons_of_ne_nil hne
      refine ⟨{ boundaries := st :: r.boundaries, trace := t1 ++ r.trace, ended := r.ended },
        by simp only [hc, hr], rfl, ?_, ?_, ⟨last, ?_, hend⟩, ?_⟩
      · intro s hs
        rcases List.mem_cons.1 hs with h1 | h1
        · rw [h1]; exact hinv
        · exact hall s h1
      · intro s hs
        simp only [hb, List.dropLast_cons₂] at hs
        rcases List.mem_cons.1 hs with h1 | h1
        · rw [h1]; omega
        · exact hdrop s (by rw [hb]; exact h1)
      · simp only [hb, List.getLast?_cons_cons]
        rw [← hb]; exact hlast
      · intro he
        simp only [List.length_cons, hlen he]

/-! ## Claims on the group session's main loop -/

/-- C5: in a session of `n ≤ 50` users, for every sequence of cycles whose
removal commands name users of the group, the main loop is defined;
`total_active` equals the number of active users at every test of the loop;
the loop goes on at every test but the last; it has ended exactly when fewer
than two users are active at the last test, and when it has not ended every
given cycle has run. -/
theorem total_active_counts_active_users (g n : Nat) (hn : n ≤ MAX_USERS)
    (cs : List CycleInput)
    (hq : ∀ c ∈ cs, ∀ m ∈ drained g c.queue, 0 ≤ m.user_id ∧ m.user_id < n) :
    ∃ r, mainLoop g n (initGroup n) cs = some r
      ∧ (∀ s ∈ r.boundaries, s.total_active = activeCount n s)
      ∧ (∀ s ∈ r.boundaries.dropLast, 2 ≤ activeCount n s)
      ∧ (∃ last, r.boundaries.getLast? = some last
          ∧ (r.ended = true ↔ activeCount n last < 2))
      ∧ (r.ended = false → r.boundaries.length = cs.length + 1) := by
  obtain ⟨r, hr, _, h1, h2, h3, h4⟩ := mainLoop_counts g n hn cs (initGroup n) hq
    (by rw [activeCount_initGroup]; rfl)
  exact ⟨r, hr, h1, h2, h3, h4⟩

/-- C5 on the scenario of the specification: two users, the stream of user 1
at its end in the first cycle. The loop is tested twice and ends at the second
test with `total_active = 1`, user 0 still active. -/
theorem total_active_counts_active_users_witness :
    (mainLoop 0 2 (initGroup 2) [secondUserAtEof]).map
        (fun r => (r.ended,
          r.boundaries.map fun s => (s.total_active, s.users_active 0, s.users_active 1)))
      = some (true, [(2, 16843009, 16843009), (1, 16843009, 0)])
    ∧ ∃ r, mainLoop 0 2 (initGroup 2) [secondUserAtEof] = some r
      ∧ (∀ s ∈ r.boundaries, s.total_active = activeCount 2 s)
      ∧ (∀ s ∈ r.boundaries.dropLast, 2 ≤ activeCount 2 s)
      ∧ (∃ last, r.boundaries.getLast? = some last
          ∧ (r.ended = true ↔ activeCount 2 last < 2))
      ∧ (r.ended = false → r.boundaries.length = [secondUserAtEof].length + 1) :=
  ⟨by decide,
    total_active_counts_active_users 0 2 (by decide) [secondUserAtEof] (by decide)⟩

/-- C6, what the code does: the termination section sends one message of
type 3, carrying the group index and the removed-user count, to the validation
queue and nothing to the app queue, so an orchestrator waiting for one group
stays at `active_groups = 1`. -/
theorem terminated_event_not_sent_to_app (g : Nat) (st : GroupState) :
    sentTo Bus.validation (shutdown g st)
        = [{ mtype := 3, timestamp := 0, user := st.user_removed_count, mtext := [],
             modifyingGroup := g }]
      ∧ sentTo Bus.app (shutdown g st) = []
      ∧ awaitTerminations 1 (sentTo Bus.app (shutdown g st)) = 1 := by
  refine ⟨rfl, rfl, rfl⟩

/-! ## The group session: a user that has left `Active` -/

theorem deactivate_keeps_zero (ua : Nat → Int) (i j : Nat) (h : ua i = 0) :
    deactivate ua j i = 0 := by
  unfold deactivate
  split
  · rfl
  · exact h

theorem userPass_inactive (g : Nat) (reads : Nat → ReadResult) (i : Nat) (is : List Nat) :
    ∀ (st : GroupState) (all_empty : Bool),
      (∀ j ∈ is, j < MAX_USERS) →
      st.users_active i = 0 →
      ∃ st1 t b, userPass g reads is st all_empty = some (st1, t, b)
        ∧ st1.users_active i = 0 ∧ ∀ e ∈ t, e.user ≠ some i := by
  induction is with
  | nil =>
    intro st all_empty _ hin
    exact ⟨st, [], all_empty, rfl, hin, by simp⟩
  | cons j is ih =>
    intro st all_empty hb hin
    have hj := hb j (List.mem_cons_self _ _)
    have hb1 : ∀ k ∈ is, k < MAX_USERS := fun k hk => hb k (List.mem_cons_of_mem _ hk)
    unfold userPass
    rw [if_pos hj]
    by_cases hact : st.users_active j = 0
    · rw [if_pos hact]
      exact ih st all_empty hb1 hin
    · rw [if_neg hact]
      have hji : j ≠ i := fun he => hact (he ▸ hin)
      cases hr : reads j with
      | data bytes =>
        obtain ⟨st1, t, b, hrun, hin1, ht⟩ := ih st false hb1 hin
        dsimp only
        cases hp : sscanfRecord (readBuffer bytes) with
        | none =>
          simp only [hrun, Option.map_some']
          refine ⟨_, _, _, rfl, hin1, ?_⟩
          intro e he
          rcases List.mem_cons.1 he with h1 | h1
          · rw [h1]; simpa [Effect.user] using hji
          · exact ht e h1
        | some rec =>
          obtain ⟨ts, usr, msgText⟩ := rec
          simp only [hrun, Option.map_some']
          refine ⟨_, _, _, rfl, hin1, ?_⟩
          intro e he
          simp only [List.mem_cons] at he
          rcases he with h1 | h1 | h1 | h1
          · rw [h1]; simpa [Effect.user] using hji
          · rw [h1]; simpa [Effect.user] using hji
          · rw [h1]; simpa [Effect.user] using hji
          · exact ht e h1
      | eof =>
        obtain ⟨st1, t, b, hrun, hin1, ht⟩ := ih
          { st with users_active := deactivate st.users_active j
                    total_active := st.total_active - 1 } all_empty hb1
          (deactivate_keeps_zero _ i j hin)
        simp only [hrun, Option.map_some']
        refine ⟨_, _, _, rfl, hin1, ?_⟩
        intro e he
        rcases List.mem_cons.1 he with h1 | h1
        · rw [h1]; simpa [Effect.user] using hji
        · exact ht e h1
      | error =>
        obtain ⟨st1, t, b, hrun, hin1, ht⟩ := ih st all_empty hb1 hin
        simp only [hrun, Option.map_some']
        refine ⟨_, _, _, rfl, hin1, ?_⟩
        intro e he
        rcases List.mem_cons.1 he with h1 | h1
        · rw [h1]; simpa [Effect.user] using hji
        · exact ht e h1

theorem applyRemoval_inactive (i : Nat) (m : ModMessage) (st : GroupState)
    (hm : 0 ≤ m.user_id ∧ m.user_id < MAX_USERS) (hin : st.users_active i = 0) :
    ∃ st1 t, applyRemoval m st = some (st1, t)
      ∧ st1.users_active i = 0 ∧ ∀ e ∈ t, e.user ≠ some i := by
  unfold applyRemoval
  by_cases h1 : m.removeUser = 1
  · rw [if_pos h1, if_pos hm]
    by_cases hact : st.users_active m.user_id.toNat = 0
    · rw [if_pos hact]; exact ⟨_, _, rfl, hin, by simp⟩
    · rw [if_neg hact]
      have hne : m.user_id.toNat ≠ i := fun he => hact (he ▸ hin)
      refine ⟨_, _, rfl, deactivate_keeps_zero _ i _ hin, ?_⟩
      intro e he
      rw [List.mem_singleton.1 he]
      simpa [Effect.user] using hne
  · rw [if_neg h1]; exact ⟨_, _, rfl, hin, by simp⟩

theorem drain_inactive (i : Nat) (ms : List ModMessage) :
    ∀ st : GroupState, (∀ m ∈ ms, 0 ≤ m.user_id ∧ m.user_id < MAX_USERS) →
      st.users_active i = 0 →
      ∃ st1 t, drain ms st = some (st1, t)
        ∧ st1.users_active i = 0 ∧ ∀ e ∈ t, e.user ≠ some i := by
  induction ms with
  | nil => intro st _ hin; exact ⟨st, [], rfl, hin, by simp⟩
  | cons m ms ih =>
    intro st hb hin
    obtain ⟨st1, t1, h1, hin1, ht1⟩ :=
      applyRemoval_inactive i m st (hb m (List.mem_cons_self _ _)) hin
    obtain ⟨st2, t2, h2, hin2, ht2⟩ :=
      ih st1 (fun x hx => hb x (List.mem_cons_of_mem _ hx)) hin1
    refine ⟨st2, t1 ++ t2, by simp only [drain, h1, h2], hin2, ?_⟩
    intro e he
    rcases List.mem_append.1 he with h | h
    · exact ht1 e h
    · exact ht2 e h

theorem cycleFrom_inactive (g i : Nat) (c : CycleInput) (is : List Nat) (st : GroupState)
    (all_empty : Bool) (his : ∀ j ∈ is, j < MAX_USERS)
    (hq : ∀ m ∈ drained g c.queue, 0 ≤ m.user_id ∧ m.user_id < MAX_USERS)
    (hin : st.users_active i = 0) :
    ∃ st1 t, cycleFrom g c is st all_empty = some (st1, t)
      ∧ st1.users_active i = 0 ∧ ∀ e ∈ t, e.user ≠ some i := by
  obtain ⟨st1, t1, b, h1, hin1, ht1⟩ := userPass_inactive g c.reads i is st all_empty his hin
  obtain ⟨st2, t2, h2, hin2, ht2⟩ := drain_inactive i (drained g c.queue) st1 hq hin1
  refine ⟨st2, t1 ++ t2 ++ (if b then [Effect.usleep] else []),
    by simp only [cycleFrom, h1, h2], hin2, ?_⟩
  intro e he
  rcases List.mem_append.1 he with h | h
  · rcases List.mem_append.1 h with h | h
    · exact ht1 e h
    · exact ht2 e h
  · split at h
    · rw [List.mem_singleton.1 h]; simp [Effect.user]
    · simp at h

theorem mainLoop_inactive (g n i : Nat) (hn : n ≤ MAX_USERS) (cs : List CycleInput) :
    ∀ st : GroupState,
      (∀ c ∈ cs, ∀ m ∈ drained g c.queue, 0 ≤ m.user_id ∧ m.user_id < MAX_USERS) →
      st.users_active i = 0 →
      ∃ r, mainLoop g n st cs = some r
        ∧ (∀ s ∈ r.boundaries, s.users_active i = 0) ∧ ∀ e ∈ r.trace, e.user ≠ some i := by
  induction cs with
  | nil =>
    intro st _ hin
    unfold mainLoop
    split
    · refine ⟨_, rfl, ?_, by simp⟩
      intro s hs; simp at hs; rw [hs]; exact hin
    · refine ⟨_, rfl, ?_, by simp⟩
      intro s hs; simp at hs; rw [hs]; exact hin
  | cons c rest ih =>
    intro st hq hin
    unfold mainLoop
    split
    · refine ⟨_, rfl, ?_, by simp⟩
      intro s hs; simp at hs; rw [hs]; exact hin
    · obtain ⟨st1, t1, h1, hin1, ht1⟩ := cycleFrom_inactive g i c (List.range n) st true
        (fun j hj => by have := List.mem_range.1 hj; omega)
        (hq c (List.mem_cons_self _ _)) hin
      obtain ⟨r, hr, hall, htr⟩ := ih st1 (fun x hx => hq x (List.mem_cons_of_mem _ hx)) hin1
      refine ⟨{ boundaries := st :: r.boundaries, trace := t1 ++ r.trace, ended := r.ended },
        by simp only [cycle, h1, hr], ?_, ?_⟩
      · intro s hs
        rcases List.mem_cons.1 hs with h | h
        · rw [h]; exact hin
        · exact hall s h
      · intro e he
        rcases List.mem_append.1 he with h | h
        · exact ht1 e h
        · exact htr e h

/-- C7: once `users_active[i]` is 0, at any point of a cycle, the rest of that
cycle and every later cycle are defined, `users_active[i]` is 0 at the end of
the cycle and at every later test of the loop, and no later effect concerns
user `i`: no `read` on its pipe, no message forwarded from it, no end of
stream handled for it, no `close` of its pipe by a removal. -/
theorem inactive_user_is_terminal (g n i : Nat) (hn : n ≤ MAX_USERS) (c : CycleInput)
    (is : List Nat) (cs : List CycleInput) (st : GroupState) (all_empty : Bool)
    (his : ∀ j ∈ is, j < MAX_USERS)
    (hq : ∀ c1 ∈ c :: cs, ∀ m ∈ drained g c1.queue, 0 ≤ m.user_id ∧ m.user_id < MAX_USERS)
    (hin : st.users_active i = 0) :
    ∃ st1 t1 r, cycleFrom g c is st all_empty = some (st1, t1)
      ∧ mainLoop g n st1 cs = some r
      ∧ st1.users_active i = 0
      ∧ (∀ s ∈ r.boundaries, s.users_active i = 0)
      ∧ ∀ e ∈ t1 ++ r.trace, e.user ≠ some i := by
  obtain ⟨st1, t1, h1, hin1, ht1⟩ := cycleFrom_inactive g i c is st all_empty his
    (hq c (List.mem_cons_self _ _)) hin
  obtain ⟨r, hr, hall, htr⟩ := mainLoop_inactive g n i hn cs st1
    (fun x hx => hq x (List.mem_cons_of_mem _ hx)) hin1
  refine ⟨st1, t1, r, h1, hr, hin1, hall, ?_⟩
  intro e he
  rcases List.mem_append.1 he with h | h
  · exact ht1 e h
  · exact htr e h

/-- C7 on a group of three users of which user 1 has left `Active`: in a
cycle where every stream has data and a removal command names user 1, and in
the cycle after it, the pipes of users 0 and 2 are read and forwarded, nothing
concerns user 1 and its entry stays 0. -/
theorem inactive_user_is_terminal_witness :
    (cycleFrom 0 allDeliver [0, 1, 2] userOneInactive true).map
        (fun p => (p.1.users_active 1, p.1.total_active, p.1.user_removed_count,
          p.2.map Effect.user))
      = some (0, 2, 0, [some 0, some 0, some 0, some 2, some 2, some 2])
    ∧ ∃ st1 t1 r, cycleFrom 0 allDeliver [0, 1, 2] userOneInactive true = some (st1, t1)
      ∧ mainLoop 0 3 st1 [allDeliver] = some r
      ∧ st1.users_active 1 = 0
      ∧ (∀ s ∈ r.boundaries, s.users_active 1 = 0)
      ∧ ∀ e ∈ t1 ++ r.trace, e.user ≠ some 1 :=
  ⟨by decide,
    inactive_user_is_terminal 0 3 1 (by decide) allDeliver [0, 1, 2] [allDeliver]
      userOneInactive true (by decide) (by decide) (by decide)⟩

/-! ## Printing and scanning decimal numbers -/

theorem isdigit_not_space (c : Nat) (h : isdigit c = true) : isspace c = false := by
  simp only [isdigit, Bool.and_eq_true, decide_eq_true_eq] at h
  simp only [isspace, Bool.or_eq_false_iff, beq_eq_false_iff_ne, Bool.and_eq_false_iff,
    decide_eq_false_iff_not]
  omega

theorem decDigits_spec (fuel : Nat) :
    ∀ n, n < fuel →
      (∀ d ∈ decDigits fuel n, isdigit d = true) ∧ decDigits fuel n ≠ []
        ∧ digitsValue 0 (decDigits fuel n) = n := by
  induction fuel with
  | zero => intro n h; omega
  | succ fuel ih =>
    intro n hn
    unfold decDigits
    by_cases h10 : n < 10
    · rw [if_pos h10]
      refine ⟨?_, by simp, ?_⟩
      · intro d hd
        rw [List.mem_singleton.1 hd]
        simp only [isdigit, Bool.and_eq_true, decide_eq_true_eq]
        omega
      · simp [digitsValue]
    · rw [if_neg h10]
      obtain ⟨hd, _, hv⟩ := ih (n / 10) (by omega)
      refine ⟨?_, by simp, ?_⟩
      · intro d hmem
        rcases List.mem_append.1 hmem with h | h
        · exact hd d h
        · rw [List.mem_singleton.1 h]
          simp only [isdigit, Bool.and_eq_true, decide_eq_true_eq]
          omega
      · unfold digitsValue at hv ⊢
        rw [List.foldl_append, hv]
        simp only [List.foldl_cons, List.foldl_nil]
        omega

theorem printNat_spec (n : Nat) :
    (∀ d ∈ printNat n, isdigit d = true) ∧ printNat n ≠ [] ∧ digitsValue 0 (printNat n) = n :=
  decDigits_spec (n + 1) n (Nat.lt_succ_self n)

theorem scanDigits_digits (ds : List Nat) :
    ∀ (acc : Nat) (rest : List Nat), (∀ d ∈ ds, isdigit d = true) →
      scanDigits acc (ds ++ rest) = scanDigits (digitsValue acc ds) rest := by
  induction ds with
  | nil => intro acc rest _; rfl
  | cons d ds ih =>
    intro acc rest h
    have hd := h d (List.mem_cons_self _ _)
    rw [List.cons_append, scanDigits, if_pos hd,
      ih _ _ (fun x hx => h x (List.mem_cons_of_mem _ hx))]
    rfl

theorem scanDigits_stop (acc c : Nat) (cs : List Nat) (h : isdigit c = false) :
    scanDigits acc (c :: cs) = (acc, c :: cs) := by
  simp [scanDigits, h]

/-- Scanning what `%d` printed for a natural number, followed by a byte that
is no digit, gives the number back and stops at that byte. -/
theorem scanDigits_printNat (n c : Nat) (cs : List Nat) (h : isdigit c = false) :
    scanDigits 0 (printNat n ++ c :: cs) = (n, c :: cs) := by
  obtain ⟨hd, _, hv⟩ := printNat_spec n
  rw [scanDigits_digits _ _ _ hd, hv, scanDigits_stop _ _ _ h]

theorem skipSpace_of_not_space (c : Nat) (cs : List Nat) (h : isspace c = false) :
    skipSpace (c :: cs) = c :: cs := by
  simp [skipSpace, h]

theorem scanInt_printNat (n c : Nat) (cs : List Nat) (h : isdigit c = false)
    (hn : (n : Int) ≤ INT_MAX) :
    scanInt (printNat n ++ c :: cs) = some ((n : Int), c :: cs) := by
  obtain ⟨hd, hne, _⟩ := printNat_spec n
  obtain ⟨d, ds, hds⟩ := List.exists_cons_of_ne_nil hne
  have hdd : isdigit d = true := hd d (by rw [hds]; exact List.mem_cons_self _ _)
  have hscan := scanDigits_printNat n c cs h
  rw [hds] at hscan
  have h45 : d ≠ 45 := by
    intro he; rw [he] at hdd; exact absurd hdd (by decide)
  have h43 : d ≠ 43 := by
    intro he; rw [he] at hdd; exact absurd hdd (by decide)
  have hw : wrapInt (n : Int) = n :=
    wrapInt_of_fits _ (by unfold INT_MIN; omega) hn
  unfold scanInt
  rw [hds, List.cons_append, skipSpace_of_not_space _ _ (isdigit_not_space d hdd)]
  simp only [h45, h43, if_false, hdd, if_true]
  rw [List.cons_append] at hscan
  rw [hscan, hw]

/-- Scanning with `%d` what `%d` printed for an `int`, followed by a byte that
is no digit, gives the value back and stops at that byte. -/
theorem scanInt_printInt (x : Int) (c : Nat) (cs : List Nat) (h : isdigit c = false)
    (hlo : INT_MIN ≤ x) (hhi : x ≤ INT_MAX) :
    scanInt (printInt x ++ c :: cs) = some (x, c :: cs) := by
  unfold printInt
  by_cases hneg : x < 0
  · rw [if_pos hneg]
    obtain ⟨hd, hne, _⟩ := printNat_spec x.natAbs
    obtain ⟨d, ds, hds⟩ := List.exists_cons_of_ne_nil hne
    have hdd : isdigit d = true := hd d (by rw [hds]; exact List.mem_cons_self _ _)
    have hscan := scanDigits_printNat x.natAbs c cs h
    have hw : wrapInt (-((x.natAbs : Nat) : Int)) = x := by
      have : -((x.natAbs : Nat) : Int) = x := by omega
      rw [this]
      exact wrapInt_of_fits _ hlo hhi
    unfold scanInt
    rw [List.cons_append, skipSpace_of_not_space _ _ (by decide)]
    simp only [if_true]
    rw [hds] at hscan ⊢
    rw [List.cons_append] at hscan ⊢
    simp only [hdd, if_true]
    rw [hscan, hw]
  · rw [if_neg hneg]
    have hx : ((x.toNat : Nat) : Int) = x := by omega
    have := scanInt_printNat x.toNat c cs h (by omega)
    rw [hx] at this
    exact this

/-! ## One record from the agent to the session -/

theorem isdigit_ne_zero (c : Nat) (h : isdigit c = true) : c ≠ 0 := by
  simp only [isdigit, Bool.and_eq_true, decide_eq_true_eq] at h
  omega

theorem printInt_ne_zero (x : Int) : ∀ c ∈ printInt x, c ≠ 0 := by
  intro c hc
  unfold printInt at hc
  split at hc
  · rcases List.mem_cons.1 hc with h | h
    · omega
    · exact isdigit_ne_zero c ((printNat_spec _).1 c h)
  · exact isdigit_ne_zero c ((printNat_spec _).1 c hc)

theorem cString_of_no_nul (s : List Nat) (h : ∀ c ∈ s, c ≠ 0) : cString s = s := by
  unfold cString
  rw [List.takeWhile_eq_self_iff]
  intro c hc
  simpa using h c hc

theorem cString_padded (s : List Nat) (k : Nat) (h : ∀ c ∈ s, c ≠ 0) :
    cString (s ++ List.replicate k 0) = s := by
  induction s with
  | nil =>
    cases k with
    | zero => rfl
    | succ k => simp [cString, List.replicate_succ]
  | cons c cs ih =>
    have hc : c ≠ 0 := h c (List.mem_cons_self _ _)
    have := ih (fun x hx => h x (List.mem_cons_of_mem _ hx))
    unfold cString at this ⊢
    rw [List.cons_append, List.takeWhile_cons]
    simp [hc, this]

theorem formatRecord_eq (ts : Int) (i : Nat) (text : List Nat)
    (htext : ∀ c ∈ text, c ≠ 0 ∧ isspace c = false) (hlen : text.length ≤ 255) :
    formatRecord ts i text = printInt ts ++ 32 :: (printInt i ++ 32 :: text) := by
  unfold formatRecord
  rw [cString_of_no_nul text (fun c hc => (htext c hc).1),
    List.take_of_length_le (by unfold MAX_TEXT_SIZE; omega)]
  simp

theorem formatRecord_ne_zero (ts : Int) (i : Nat) (text : List Nat)
    (htext : ∀ c ∈ text, c ≠ 0 ∧ isspace c = false) (hlen : text.length ≤ 255) :
    ∀ c ∈ formatRecord ts i text, c ≠ 0 := by
  rw [formatRecord_eq ts i text htext hlen]
  intro c hc
  simp only [List.mem_append, List.mem_cons] at hc
  rcases hc with h | h | h | h | h
  · exact printInt_ne_zero _ c h
  · omega
  · exact printInt_ne_zero _ c h
  · omega
  · exact (htext c h).1

theorem scanStr_token (w : Nat) (text : List Nat) (hne : text ≠ [])
    (htext : ∀ c ∈ text, c ≠ 0 ∧ isspace c = false) (hlen : text.length ≤ w) :
    scanStr (some w) (32 :: text) = some (text, []) := by
  obtain ⟨c, cs, hcs⟩ := List.exists_cons_of_ne_nil hne
  have hskip : skipSpace (32 :: text) = text := by
    rw [skipSpace, if_pos (by decide), hcs]
    exact skipSpace_of_not_space c cs (htext c (by rw [hcs]; exact List.mem_cons_self _ _)).2
  have hrun : (text.takeWhile fun c => !isspace c) = text := by
    rw [List.takeWhile_eq_self_iff]
    intro x hx
    simp [(htext x hx).2]
  unfold scanStr
  simp only [hskip, hrun, List.take_of_length_le hlen]
  rw [if_neg (by simpa [List.isEmpty_iff] using hne)]
  simp

/-- The bytes of the first `read` on a record that fits 255 bytes hold the
formatted record and a NUL after it. -/
theorem firstRead_buffer (s : List Nat) (hlen : s.length ≤ 255) :
    readBuffer ((s ++ List.replicate (RECORD_SIZE - s.length) 0).take MAX_TEXT_SIZE)
      = s ++ List.replicate (MAX_TEXT_SIZE - s.length) 0 := by
  have h1 : (s ++ List.replicate (RECORD_SIZE - s.length) 0).take MAX_TEXT_SIZE
      = s ++ List.replicate (MAX_TEXT_SIZE - s.length) 0 := by
    rw [List.take_append_eq_append_take, List.take_of_length_le (by unfold MAX_TEXT_SIZE; omega),
      List.take_replicate]
    congr 2
    unfold RECORD_SIZE MAX_TEXT_SIZE
    omega
  rw [h1]
  unfold readBuffer
  have h2 : (s ++ List.replicate (MAX_TEXT_SIZE - s.length) 0).length = MAX_TEXT_SIZE := by
    rw [List.length_append, List.length_replicate]
    unfold MAX_TEXT_SIZE
    omega
  rw [h2, Nat.sub_self]
  simp only [List.replicate_zero, List.append_nil]
  exact List.take_of_length_le (le_of_eq h2)

theorem sscanfRecord_formatRecord (ts : Int) (i : Nat) (text : List Nat)
    (hlo : INT_MIN ≤ ts) (hhi : ts ≤ INT_MAX) (hi : (i : Int) ≤ INT_MAX)
    (hne : text ≠ []) (htext : ∀ c ∈ text, c ≠ 0 ∧ isspace c = false)
    (hlen : (formatRecord ts i text).length ≤ 255) (k : Nat) :
    sscanfRecord (formatRecord ts i text ++ List.replicate k 0) = some (ts, (i : Int), text) := by
  have htl : text.length ≤ 255 := by
    have h := hlen
    unfold formatRecord at h
    rw [cString_of_no_nul text (fun c hc => (htext c hc).1)] at h
    simp only [List.length_append, List.length_take, List.length_cons, List.length_nil] at h
    unfold MAX_TEXT_SIZE at h
    omega
  unfold sscanfRecord
  rw [cString_padded _ k (formatRecord_ne_zero ts i text htext htl),
    formatRecord_eq ts i text htext htl,
    scanInt_printInt ts 32 _ (by decide) hlo hhi]
  simp only
  have h2 : scanInt (32 :: (printInt (i : Int) ++ 32 :: text)) = some ((i : Int), 32 :: text) := by
    have hp : printInt (i : Int) = printNat i := by
      unfold printInt
      rw [if_neg (by omega)]
      simp
    have := scanInt_printNat i 32 text (by decide) hi
    obtain ⟨hd, hnn, _⟩ := printNat_spec i
    obtain ⟨d, ds, hds⟩ := List.exists_cons_of_ne_nil hnn
    have hdd : isdigit d = true := hd d (by rw [hds]; exact List.mem_cons_self _ _)
    rw [hp]
    unfold scanInt at this ⊢
    rw [skipSpace, if_pos (by decide)]
    exact this
  rw [h2]
  simp only
  rw [scanStr_token 255 text hne htext htl]

/-! ## The agent's loop does not depend on the bound of its iterations -/

theorem skipSpace_length_le (s : List Nat) : (skipSpace s).length ≤ s.length := by
  induction s with
  | nil => simp [skipSpace]
  | cons c cs ih =>
    unfold skipSpace
    split
    · simp only [List.length_cons]; omega
    · exact le_refl _

theorem scanDigits_length_le (s : List Nat) :
    ∀ acc, (scanDigits acc s).2.length ≤ s.length := by
  induction s with
  | nil => intro acc; simp [scanDigits]
  | cons c cs ih =>
    intro acc
    unfold scanDigits
    split
    · have := ih (acc * 10 + (c - 48))
      simp only [List.length_cons]; omega
    · exact le_refl _

theorem scanInt_length_lt (s : List Nat) (v : Int) (rest : List Nat)
    (h : scanInt s = some (v, rest)) : rest.length < s.length := by
  have hskip := skipSpace_length_le s
  unfold scanInt at h
  split at h
  · exact absurd h (by simp)
  · rename_i c cs hs
    rw [hs] at hskip
    simp only [List.length_cons] at hskip
    split at h
    · split at h
      · exact absurd h (by simp)
      · rename_i d ds
        split at h
        · have hr : rest = (scanDigits 0 (d :: ds)).2 := by
            have := Option.some.inj h
            exact (Prod.mk.inj this).2.symm
          have := scanDigits_length_le (d :: ds) 0
          rw [hr]
          omega
        · exact absurd h (by simp)
    · split at h
      · split at h
        · exact absurd h (by simp)
        · rename_i d ds
          split at h
          · have hr : rest = (scanDigits 0 (d :: ds)).2 := by
              have := Option.some.inj h
              exact (Prod.mk.inj this).2.symm
            have := scanDigits_length_le (d :: ds) 0
            rw [hr]
            omega
          · exact absurd h (by simp)
      · split at h
        · rename_i hd
          have hr : rest = (scanDigits 0 (c :: cs)).2 := by
            have := Option.some.inj h
            exact (Prod.mk.inj this).2.symm
          have h1 : (scanDigits 0 (c :: cs)).2.length ≤ cs.length := by
            unfold scanDigits
            rw [if_pos hd]
            exact scanDigits_length_le cs _
          rw [hr]
          omega
        · exact absurd h (by simp)

theorem scanStr_length_le (w : Option Nat) (s tok rest : List Nat)
    (h : scanStr w s = some (tok, rest)) : rest.length ≤ s.length := by
  have hskip := skipSpace_length_le s
  unfold scanStr at h
  simp only at h
  split at h
  · exact absurd h (by simp)
  · have hr := (Prod.mk.inj (Option.some.inj h)).2
    rw [← hr, List.length_drop]
    omega

/-- The agent's loop gives the same buffers for every bound of its iterations
that is at least the length of the script. -/
theorem agentLoop_fuel (i : Nat) (fuel1 : Nat) :
    ∀ (fuel2 : Nat) (input : List Nat), input.length ≤ fuel1 → input.length ≤ fuel2 →
      agentLoop i fuel1 input = agentLoop i fuel2 input := by
  induction fuel1 with
  | zero =>
    intro fuel2 input h1 _
    have hnil : input = [] := List.length_eq_zero.1 (by omega)
    subst hnil
    cases fuel2 with
    | zero => rfl
    | succ k => simp [agentLoop, scanInt, skipSpace]
  | succ fuel1 ih =>
    intro fuel2 input h1 h2
    cases fuel2 with
    | zero =>
      have hnil : input = [] := List.length_eq_zero.1 (by omega)
      subst hnil
      simp [agentLoop, scanInt, skipSpace]
    | succ fuel2 =>
      unfold agentLoop
      cases hs : scanInt input with
      | none => rfl
      | some p =>
        obtain ⟨ts, rest⟩ := p
        have hl := scanInt_length_lt input ts rest hs
        dsimp only
        cases ht : scanStr none rest with
        | none => rfl
        | some q =>
          obtain ⟨text, rest1⟩ := q
          have hl1 := scanStr_length_le none rest text rest1 ht
          dsimp only
          rw [ih fuel2 rest1 (by omega) (by omega)]

/-! ## Claims on the path of a chat record -/

/-- C8, what the code does: for timestamp 1, user 0 and a token of 255 bytes
the record `1 0 aaa…` has 259 bytes and the agent writes 306; the 256 bytes the
session reads from the first byte of the record hold the prefix and 252 bytes
of the token and no NUL, so `sscanf` is handed no string; and they are the
same 256 bytes as for another token, so the text the session forwards cannot
be the token of the script in both cases. -/
theorem long_token_does_not_fit_the_read :
    (formatRecord 1 0 longToken).length = 259
      ∧ (agentWrite 1 0 longToken).map List.length = some 306
      ∧ (agentWrite 1 0 longToken).map (fun buffer => firstRead buffer)
          = some (ReadResult.data ([49, 32, 48, 32] ++ List.replicate 252 97))
      ∧ (agentWrite 1 0 longToken).map
          (fun buffer => holdsString (readBuffer (buffer.take MAX_TEXT_SIZE))) = some false
      ∧ (agentWrite 1 0 longToken).map (fun buffer => firstRead buffer)
          = (agentWrite 1 0 otherLongToken).map (fun buffer => firstRead buffer)
      ∧ longToken ≠ otherLongToken := by
  decide

/-- A record that fits the read: for a timestamp in the range of `int`, a user
index below `MAX_USERS` whose entry is active, and a non-empty token without
white space and NUL whose formatted record `ts i text` has at most 255 bytes, the agent
writes a buffer of `RECORD_SIZE` bytes, and the session that reads it from its
first byte forwards to the validation queue and to the moderator queue one and
the same message, with topic `30 + g`, the timestamp, the user index, the
text and the group index unchanged; the session's state is unchanged. -/
theorem record_round_trip (g i : Nat) (ts : Int) (text : List Nat) (st : GroupState)
    (all_empty : Bool) (hi : i < MAX_USERS) (hact : st.users_active i ≠ 0)
    (hlo : INT_MIN ≤ ts) (hhi : ts ≤ INT_MAX)
    (hne : text ≠ []) (htext : ∀ c ∈ text, c ≠ 0 ∧ isspace c = false)
    (hlen : (formatRecord ts i text).length ≤ 255) :
    ∃ buffer, agentWrite ts i text = some buffer ∧ buffer.length = RECORD_SIZE
      ∧ userPass g (fun _ => firstRead buffer) [i] st all_empty
          = some (st,
              [Effect.read i (firstRead buffer),
               Effect.send i Bus.validation (chatEvent g i ts text),
               Effect.send i Bus.moderator (chatEvent g i ts text)],
              false)
      ∧ chatEvent g i ts text
          = { mtype := 30 + (g : Int), timestamp := ts, user := i, mtext := text,
              modifyingGroup := g } := by
  have hsz : ¬ (formatRecord ts i text).length ≥ RECORD_SIZE := by
    unfold RECORD_SIZE MAX_TEXT_SIZE; omega
  have htl : text.length ≤ 255 := by
    have h := hlen
    unfold formatRecord at h
    rw [cString_of_no_nul text (fun c hc => (htext c hc).1)] at h
    simp only [List.length_append, List.length_take, List.length_cons, List.length_nil] at h
    unfold MAX_TEXT_SIZE at h
    omega
  have hparse : sscanfRecord (readBuffer
      ((formatRecord ts i text
        ++ List.replicate (RECORD_SIZE - (formatRecord ts i text).length) 0).take MAX_TEXT_SIZE))
      = some (ts, (i : Int), text) := by
    rw [firstRead_buffer _ hlen]
    exact sscanfRecord_formatRecord ts i text hlo hhi
      (by unfold MAX_USERS at hi; unfold INT_MAX; omega) hne htext hlen _
  refine ⟨formatRecord ts i text
      ++ List.replicate (RECORD_SIZE - (formatRecord ts i text).length) 0, ?_, ?_, ?_, rfl⟩
  · unfold agentWrite
    simp only [hsz, if_false]
  · rw [List.length_append, List.length_replicate]
    unfold RECORD_SIZE MAX_TEXT_SIZE at hsz ⊢
    omega
  · unfold userPass
    rw [if_pos hi, if_neg hact]
    simp only [firstRead, hparse, userPass, Option.map_some', chatMessage, chatEvent]
    rw [List.take_of_length_le (show text.length ≤ MAX_TEXT_SIZE - 1 by
      unfold MAX_TEXT_SIZE; omega)]

/-- The record `7 3 hello` of user 3 of group 2 from the agent to both queues. -/
theorem record_round_trip_witness :
    ∃ buffer, agentWrite 7 3 hello = some buffer ∧ buffer.length = RECORD_SIZE
      ∧ userPass 2 (fun _ => firstRead buffer) [3] (initGroup 5) true
          = some (initGroup 5,
              [Effect.read 3 (firstRead buffer),
               Effect.send 3 Bus.validation (chatEvent 2 3 7 hello),
               Effect.send 3 Bus.moderator (chatEvent 2 3 7 hello)],
              false)
      ∧ chatEvent 2 3 7 hello
          = { mtype := 32, timestamp := 7, user := 3, mtext := hello, modifyingGroup := 2 } := by
  obtain ⟨buffer, h1, h2, h3, _⟩ := record_round_trip 2 3 7 hello (initGroup 5) true (by decide) (by decide) (by decide)
    (by decide) (by decide) (by decide) (by decide)
  exact ⟨buffer, h1, h2, h3, by decide⟩

/-- C9, what the code does: on the script `1 hello`, `abc def`, `2 world` the
agent's loop ends at the malformed line and writes the record of `1 hello`
only, while on the script without that line it writes both records. A record
the session cannot parse is read and dropped with the user still active. -/
theorem malformed_line_ends_the_script :
    (userAgent 0 scriptWithMalformedLine).map (fun l => l.map cString)
        = some [formatRecord 1 0 hello]
      ∧ (userAgent 0 scriptWithoutMalformedLine).map (fun l => l.map cString)
        = some [formatRecord 1 0 hello, formatRecord 2 0 world]
      ∧ (userPass 0 (fun _ => .data [97, 98, 99, 32, 100, 101, 102]) [0] (initGroup 2) true).map
          (fun r => (r.1.users_active 0, r.1.total_active, r.2.1))
        = some (16843009, 2, [Effect.read 0 (.data [97, 98, 99, 32, 100, 101, 102])]) := by
  decide

/-- C10, what the code does: the orchestrator accepts 30 groups, and the type
group 29 asks for when it drains removal commands, 30, is the chat topic of
group 0; among the groups 0 to 29 this is the one pair where a removal filter
meets a chat topic. -/
theorem removal_filter_meets_chat_topic :
    orchestratorAccepts 30 = true
      ∧ removalFilter 29 = chatTopic 0
      ∧ (removalCommand 29 0).mtype = (chatEvent 0 0 1 hello).mtype
      ∧ ∀ g h : Fin 30, (removalFilter g = chatTopic h ↔ (g.val = 29 ∧ h.val = 0)) := by
  refine ⟨by decide, by decide, by decide, ?_⟩
  intro g h
  have hg := g.isLt
  have hh := h.isLt
  unfold removalFilter chatTopic MAX_GROUPS
  omega

/-! ## Claims on capacity, removal commands and framing -/

theorem orchestratorSpawn_above_capacity (n : Int) (h : n > MAX_GROUPS) :
    orchestratorSpawn n = ([], Outcome.exitFailure) := by
  simp [orchestratorSpawn, orchestratorAccepts, h]

theorem spawnLoop_never_exits (g remaining : Nat) :
    ∀ i : Nat, (spawnLoop g remaining i (i : Int)).2 ≠ Outcome.exitFailure := by
  induction remaining with
  | zero => intro i; simp [spawnLoop]
  | succ remaining ih =>
    intro i
    unfold spawnLoop
    by_cases hi : i < MAX_USERS
    · have hc : ¬ ((i : Int) ≥ (MAX_USERS : Nat)) := by omega
      rw [if_pos hi, if_neg hc]
      have := ih (i + 1)
      simpa using this
    · rw [if_neg hi]
      simp

/-- C11, what the code does: the orchestrator given 31 groups exits with
failure and spawns nothing; a session given 51 users meets no comparison of
the count with `MAX_USERS` before its spawn loop, the loop forks the agent of
user 0 and sends its user-joined message at once, has forked 50 agents and sent
50 user-joined messages when it indexes `pipes` past its end, and for no
count does the loop leave through the capacity test of its body. -/
theorem capacity_test_comes_after_spawning :
    orchestratorSpawn 31 = ([], Outcome.exitFailure)
      ∧ readUserFiles 51 = Outcome.undefined
      ∧ (spawnLoop 0 51 0 0).1.take 2
          = [StartupEffect.fork 0, StartupEffect.send Bus.validation (joinedEvent 0 0)]
      ∧ ((spawnLoop 0 51 0 0).1.filter StartupEffect.isFork).length = 50
      ∧ ((spawnLoop 0 51 0 0).1.filter StartupEffect.isJoined).length = 50
      ∧ (spawnLoop 0 51 0 0).2 = Outcome.undefined
      ∧ ∀ n : Nat, (spawnLoop 0 n 0 0).2 ≠ Outcome.exitFailure := by
  refine ⟨by decide, by decide, by decide, by decide, by decide, by decide, ?_⟩
  intro n
  exact spawnLoop_never_exits 0 n 0

/-- C12, what the code does: in a group of two users, both active, a removal
command naming index 5 is applied as a removal: `total_active` goes from 2 to
1, `user_removed_count` from 0 to 1, the pipe of index 5 is closed, while two
users are still active; the main loop then ends at its next test. -/
theorem removal_of_index_beyond_group :
    (applyRemoval removalOfIndexFive (initGroup 2)).map
        (fun p => (p.1.total_active, p.1.user_removed_count, activeCount 2 p.1, p.2))
      = some (1, 1, 2, [Effect.close 5])
    ∧ (mainLoop 0 2 (initGroup 2) [strayRemovalCycle]).map
        (fun r => (r.ended, r.boundaries.map fun s =>
          (s.total_active, s.users_active 0, s.users_active 1, s.user_removed_count)))
      = some (true, [(2, 16843009, 16843009, 0), (1, 16843009, 16843009, 1)]) := by
  decide

/-- C13, what the code does: the agent writes 306 bytes for each of the two
lines `1 hello`, `2 world`, the session reads 256 bytes at a time, and of the
reads on the 612 bytes of the pipe only the first parses: one chat event,
that of the first line, is forwarded. -/
theorem records_of_306_bytes_lose_the_frame :
    (userAgent 0 scriptWithoutMalformedLine).map (fun l => l.map List.length) = some [306, 306]
      ∧ RECORD_SIZE = 306 ∧ MAX_TEXT_SIZE = 256
      ∧ (userAgent 0 scriptWithoutMalformedLine).map
          (fun l => (pipeReads l.flatten.length l.flatten).map fun r =>
            match r with
            | .data b => (b.length, (sscanfRecord (readBuffer b)).isSome)
            | _ => (0, false))
        = some [(256, true), (256, false), (100, false), (0, false)]
      ∧ forwardedFromScript scriptWithoutMalformedLine = some [chatEvent 0 0 1 hello] := by
  decide

end ChatMod
